import Mathlib

set_option maxRecDepth 8192

/-!
Verification of the AI-response normalization layer of the wrong-notebook
repository: the JSON recovery pipeline (`extractJson`, `cleanJson`,
`parseResponse`) of the two provider adapters (`OpenAIProvider`,
`GeminiProvider`), their error classification (`handleError`) and their
constructors.  All definitions are shallow embeddings of the TypeScript
source; string processing is modelled on `List Char`.
-/

namespace WN

/-- Characters treated as whitespace by `JSON.parse` between tokens. -/
def jws (c : Char) : Bool := c = ' ' || c = '\t' || c = '\n' || c = '\r'

/-- Whitespace stripped by JavaScript `String.prototype.trim` (the ASCII
members plus the common Unicode ones; all texts in this development are
ASCII). -/
def jsTrimWs (c : Char) : Bool :=
  c = ' ' || c = '\t' || c = '\n' || c = '\r' || c.toNat = 11 || c.toNat = 12 ||
  c.toNat = 0xa0 || c.toNat = 0xfeff || c.toNat = 0x2028 || c.toNat = 0x2029

/-- Model of `text.trim()`. -/
def trimChars (cs : List Char) : List Char :=
  ((cs.dropWhile jsTrimWs).reverse.dropWhile jsTrimWs).reverse

def trimStr (s : String) : String := String.mk (trimChars s.data)

def skipWs (cs : List Char) : List Char := cs.dropWhile jws

/-- The backtick character, spelled via its code point. -/
def btick : Char := Char.ofNat 96

/-- The opening brace character, spelled via its code point. -/
def obrace : Char := Char.ofNat 123

/-- The closing brace character, spelled via its code point. -/
def cbrace : Char := Char.ofNat 125

/-- The double-quote character, spelled via its code point. -/
def dquote : Char := Char.ofNat 34

/-- The backslash character, spelled via its code point. -/
def bslash : Char := Char.ofNat 92

/-- Index of the first occurrence of a triple backtick, the fence marker of
the regexes in both adapters' `extractJson`. -/
def findTriple : List Char → Option Nat
  | a :: b :: c :: r =>
    if a = btick ∧ b = btick ∧ c = btick then some 0
    else (findTriple (b :: c :: r)).map (· + 1)
  | _ => none

/-- Consume a literal `json` tag right after an opening fence, modelling the
greedy group of the regexes. -/
def dropJsonTag : List Char → List Char
  | 'j' :: 's' :: 'o' :: 'n' :: r => r
  | r => r

/-- Model of the shared code-block regex of both adapters:
the interior of the first complete fenced block, trimmed.  `none` when the
text does not contain two fence markers. -/
def codeBlockExtract (cs : List Char) : Option (List Char) :=
  match findTriple cs with
  | none => none
  | some i =>
    let after := dropJsonTag ((cs.drop i).drop 3)
    match findTriple after with
    | none => none
    | some k => some (trimChars (after.take k))

/-- Model of the OpenAI adapter's second regex (an opening fence without a
closing one): everything after the fence and optional tag, trimmed. -/
def startFenceExtract (cs : List Char) : Option (List Char) :=
  match findTriple cs with
  | none => none
  | some i => some (trimChars (dropJsonTag ((cs.drop i).drop 3)))

def firstIdxOf (cs : List Char) (c : Char) : Option Nat := cs.findIdx? (· = c)

def lastIdxOf (cs : List Char) (c : Char) : Option Nat :=
  (cs.reverse.findIdx? (· = c)).map (fun k => cs.length - 1 - k)

/-- The brace fallbacks of `OpenAIProvider.extractJson`: first `\x7b` to
last `\x7d` when the latter is further right, else from the first `\x7b` to
the end, else the text unchanged. -/
def openaiNoFence (cs1 : List Char) : List Char :=
  match firstIdxOf cs1 obrace, lastIdxOf cs1 cbrace with
  | some fo, some lc =>
    if fo < lc then (cs1.drop fo).take (lc - fo + 1)
    else cs1.drop fo
  | some fo, none => cs1.drop fo
  | none, _ => cs1

/-- `OpenAIProvider.extractJson` after the initial trim: the complete-fence
regex, then the open-fence regex, then the brace fallbacks. -/
def openaiExtractCore (cs : List Char) : List Char :=
  match codeBlockExtract cs with
  | some g => g
  | none =>
    match startFenceExtract cs with
    | some g => openaiNoFence g
    | none => openaiNoFence cs

/-- `OpenAIProvider.extractJson`. -/
def openaiExtractChars (cs0 : List Char) : List Char :=
  openaiExtractCore (trimChars cs0)

def openaiExtractJson (s : String) : String := String.mk (openaiExtractChars s.data)

/-- One step of the brace-matching scanner of `GeminiProvider.extractJson`;
the state is (braceCount, inString, escapeNext). -/
def scanStep (bc : Int) (inStr esc : Bool) (c : Char) : Int × Bool × Bool :=
  if esc then (bc, inStr, false)
  else if c = bslash then (bc, inStr, true)
  else if c = dquote then (bc, !inStr, false)
  else if inStr then (bc, inStr, false)
  else if c = obrace then (bc + 1, inStr, false)
  else if c = cbrace then (bc - 1, inStr, false)
  else (bc, inStr, false)

/-- Whether the scanner's loop breaks at this character (a closing brace
outside a string that brings the count to zero). -/
def isClosing (bc : Int) (inStr esc : Bool) (c : Char) : Bool :=
  if esc then false
  else if inStr then false
  else if c = cbrace then decide (bc - 1 = 0)
  else false

/-- The scanner's final state after a list of characters (no break). -/
def runScan : Int → Bool → Bool → List Char → Int × Bool × Bool
  | bc, inStr, esc, [] => (bc, inStr, esc)
  | bc, inStr, esc, c :: cs =>
    runScan (scanStep bc inStr esc c).1 (scanStep bc inStr esc c).2.1
      (scanStep bc inStr esc c).2.2 cs

/-- Relative index at which the scanner's loop breaks, if it does. -/
def scanFind : Int → Bool → Bool → List Char → Option Nat
  | _, _, _, [] => none
  | bc, inStr, esc, c :: cs =>
    if isClosing bc inStr esc c then some 0
    else
      (scanFind (scanStep bc inStr esc c).1 (scanStep bc inStr esc c).2.1
        (scanStep bc inStr esc c).2.2 cs).map (· + 1)

/-- Number of loop iterations the scanner performs (it stops at a break). -/
def scanSteps : Int → Bool → Bool → List Char → Nat
  | _, _, _, [] => 0
  | bc, inStr, esc, c :: cs =>
    if isClosing bc inStr esc c then 1
    else
      1 + scanSteps (scanStep bc inStr esc c).1 (scanStep bc inStr esc c).2.1
        (scanStep bc inStr esc c).2.2 cs

/-- `GeminiProvider.extractJson`. -/
def geminiExtractChars (cs : List Char) : List Char :=
  match codeBlockExtract cs with
  | some g => g
  | none =>
    match firstIdxOf cs obrace with
    | none => cs
    | some fo =>
      match scanFind 0 false false (cs.drop fo) with
      | some k => (cs.drop fo).take (k + 1)
      | none =>
        match lastIdxOf cs cbrace with
        | some lc => if fo < lc then (cs.drop fo).take (lc - fo + 1) else cs
        | none => cs

def geminiExtractJson (s : String) : String := String.mk (geminiExtractChars s.data)

/-- JavaScript line terminators, which `.` of a regex does not match. -/
def lineTerm (c : Char) : Bool :=
  c = '\n' || c = '\r' || c.toNat = 0x2028 || c.toNat = 0x2029

/-- Forced path of the quoted-string regex of `cleanJson` starting right
after an opening quote: the raw matched content (escapes kept verbatim) and
the rest after the closing quote, or `none` when no match starts here. -/
def quotedScan : List Char → Option (List Char × List Char)
  | [] => none
  | c :: r =>
    if c = dquote then some ([], r)
    else if c = bslash then
      match r with
      | [] => none
      | e :: r2 =>
        if lineTerm e then none
        else (quotedScan r2).map (fun p => (c :: e :: p.1, p.2))
    else (quotedScan r).map (fun p => (c :: p.1, p.2))

/-- The inner replacement of `cleanJson`: literal newlines become the two
characters backslash-n, carriage returns are removed. -/
def replaceNl : List Char → List Char
  | [] => []
  | c :: r =>
    if c = '\n' then bslash :: 'n' :: replaceNl r
    else if c = '\r' then replaceNl r
    else c :: replaceNl r

/-- Global scan of `cleanJson`'s quoted-string regex over the text. -/
def cleanScanF : Nat → List Char → List Char
  | 0, cs => cs
  | _ + 1, [] => []
  | f + 1, c :: r =>
    if c = dquote then
      match quotedScan r with
      | some (content, rest) =>
        dquote :: (replaceNl content ++ dquote :: cleanScanF f rest)
      | none => c :: cleanScanF f r
    else c :: cleanScanF f r

/-- `cleanJson` of both adapters (they are textually identical). -/
def cleanJson (s : String) : String :=
  String.mk (cleanScanF (s.data.length + 1) s.data)

def hexVal (c : Char) : Option Nat :=
  if '0' ≤ c ∧ c ≤ '9' then some (c.toNat - 48)
  else if 'a' ≤ c ∧ c ≤ 'f' then some (c.toNat - 87)
  else if 'A' ≤ c ∧ c ≤ 'F' then some (c.toNat - 55)
  else none

def isHexDigit (c : Char) : Bool := (hexVal c).isSome

/-- The lookahead of the backslash-escaping regex of
`OpenAIProvider.parseResponse`: is the backslash followed by a recognized
JSON escape character? -/
def validEscAfter : List Char → Bool
  | [] => false
  | e :: r =>
    if e = dquote ∨ e = bslash ∨ e = '/' ∨ e = 'b' ∨ e = 'f' ∨ e = 'n' ∨
       e = 'r' ∨ e = 't' then true
    else if e = 'u' then
      match r with
      | h1 :: h2 :: h3 :: h4 :: _ =>
        isHexDigit h1 && isHexDigit h2 && isHexDigit h3 && isHexDigit h4
      | _ => false
    else false

/-- The backslash-escaping replacement of `OpenAIProvider.parseResponse`:
every backslash not followed by a recognized escape is doubled. -/
def fixBackslashesL : List Char → List Char
  | [] => []
  | c :: r =>
    if c = bslash ∧ validEscAfter r = false then
      bslash :: bslash :: fixBackslashesL r
    else c :: fixBackslashesL r

/-- The manual escape-normalization stage of `OpenAIProvider.parseResponse`
(lines 79-80): `cleanJson` followed by the backslash-escaping replacement. -/
def manualEscapeFix (s : String) : String :=
  String.mk (fixBackslashesL (cleanJson s).data)

/-- JSON values as produced by `JSON.parse`; numbers keep their source
lexeme (none of the verified properties inspects numeric values). -/
inductive Json where
  | null : Json
  | bool : Bool → Json
  | num : String → Json
  | str : String → Json
  | arr : List Json → Json
  | obj : List (String × Json) → Json
deriving Repr

def escChar (e : Char) : Option Char :=
  if e = dquote then some dquote
  else if e = bslash then some bslash
  else if e = '/' then some '/'
  else if e = 'b' then some (Char.ofNat 8)
  else if e = 'f' then some (Char.ofNat 12)
  else if e = 'n' then some '\n'
  else if e = 'r' then some '\r'
  else if e = 't' then some '\t'
  else none

/-- String body parser of `JSON.parse`, positioned right after the opening
quote: the decoded content and the rest after the closing quote. -/
def parseStrTail : List Char → Option (List Char × List Char)
  | [] => none
  | c :: r =>
    if c = dquote then some ([], r)
    else if c = bslash then
      match r with
      | [] => none
      | e :: r2 =>
        if e = 'u' then
          match r2 with
          | h1 :: h2 :: h3 :: h4 :: r3 =>
            match hexVal h1, hexVal h2, hexVal h3, hexVal h4 with
            | some a, some b, some c4, some d =>
              (parseStrTail r3).map
                (fun p => (Char.ofNat (4096 * a + 256 * b + 16 * c4 + d) :: p.1, p.2))
            | _, _, _, _ => none
          | _ => none
        else
          match escChar e with
          | some ec => (parseStrTail r2).map (fun p => (ec :: p.1, p.2))
          | none => none
    else if c.toNat < 32 then none
    else (parseStrTail r).map (fun p => (c :: p.1, p.2))

/-- Optional sign of an exponent part. -/
def numSign : List Char → List Char × List Char
  | [] => ([], [])
  | s :: r2 => if s = '+' ∨ s = '-' then ([s], r2) else ([], s :: r2)

/-- Exponent part of a JSON number lexeme. -/
def numExp : List Char → List Char → Option (String × List Char)
  | acc, [] => some (String.mk acc, [])
  | acc, e :: r =>
    if e = 'e' ∨ e = 'E' then
      if ((numSign r).2.takeWhile Char.isDigit).isEmpty then none
      else some (String.mk (acc ++ [e] ++ (numSign r).1 ++
        (numSign r).2.takeWhile Char.isDigit), (numSign r).2.dropWhile Char.isDigit)
    else some (String.mk acc, e :: r)

/-- Fraction part of a JSON number lexeme. -/
def numFrac : List Char → List Char → Option (String × List Char)
  | acc, [] => some (String.mk acc, [])
  | acc, p :: r =>
    if p = '.' then
      if (r.takeWhile Char.isDigit).isEmpty then none
      else numExp (acc ++ [p] ++ r.takeWhile Char.isDigit) (r.dropWhile Char.isDigit)
    else numExp acc (p :: r)

/-- Integer part of a JSON number lexeme (a zero, or a nonzero digit run). -/
def parseNumInt : List Char → List Char → Option (String × List Char)
  | _, [] => none
  | acc, c :: r =>
    if c = '0' then numFrac (acc ++ ['0']) r
    else if c.isDigit then
      numFrac (acc ++ (c :: r).takeWhile Char.isDigit) ((c :: r).dropWhile Char.isDigit)
    else none

/-- JSON number lexer (sign, integer part, then fraction and exponent). -/
def parseNumber : List Char → Option (String × List Char)
  | [] => none
  | c :: r => if c = '-' then parseNumInt ['-'] r else parseNumInt [] (c :: r)

mutual

/-- Value parser of `JSON.parse` (fuelled; the caller must have skipped
whitespace). -/
def parseValueF : Nat → List Char → Option (Json × List Char)
  | 0, _ => none
  | f + 1, l =>
    match l with
    | [] => none
    | c :: r =>
      if c = obrace then
        match skipWs r with
        | [] => none
        | c1 :: r2 =>
          if c1 = cbrace then some (Json.obj [], r2)
          else (parseMembersF f (c1 :: r2)).map (fun p => (Json.obj p.1, p.2))
      else if c = '[' then
        match skipWs r with
        | [] => none
        | c1 :: r2 =>
          if c1 = ']' then some (Json.arr [], r2)
          else (parseElemsF f (c1 :: r2)).map (fun p => (Json.arr p.1, p.2))
      else if c = dquote then
        (parseStrTail r).map (fun p => (Json.str (String.mk p.1), p.2))
      else if c = 't' then
        match r with
        | 'r' :: 'u' :: 'e' :: r3 => some (Json.bool true, r3)
        | _ => none
      else if c = 'f' then
        match r with
        | 'a' :: 'l' :: 's' :: 'e' :: r3 => some (Json.bool false, r3)
        | _ => none
      else if c = 'n' then
        match r with
        | 'u' :: 'l' :: 'l' :: r3 => some (Json.null, r3)
        | _ => none
      else if c = '-' ∨ c.isDigit then
        (parseNumber l).map (fun p => (Json.num p.1, p.2))
      else none

/-- Object members parser, positioned at the first key; consumes up to and
including the closing brace. -/
def parseMembersF : Nat → List Char → Option (List (String × Json) × List Char)
  | 0, _ => none
  | f + 1, l =>
    match l with
    | [] => none
    | c :: r =>
      if c = dquote then
        match parseStrTail r with
        | none => none
        | some (kcs, r1) =>
          match skipWs r1 with
          | [] => none
          | c2 :: r3 =>
            if c2 = ':' then
              match parseValueF f (skipWs r3) with
              | none => none
              | some (v, r4) =>
                match skipWs r4 with
                | [] => none
                | c5 :: r6 =>
                  if c5 = ',' then
                    (parseMembersF f (skipWs r6)).map
                      (fun p => ((String.mk kcs, v) :: p.1, p.2))
                  else if c5 = cbrace then some ([(String.mk kcs, v)], r6)
                  else none
            else none
      else none

/-- Array elements parser, positioned at the first element; consumes up to
and including the closing bracket. -/
def parseElemsF : Nat → List Char → Option (List Json × List Char)
  | 0, _ => none
  | f + 1, l =>
    match parseValueF f l with
    | none => none
    | some (v, r1) =>
      match skipWs r1 with
      | [] => none
      | c :: r2 =>
        if c = ',' then (parseElemsF f (skipWs r2)).map (fun p => (v :: p.1, p.2))
        else if c = ']' then some ([v], r2)
        else none

end

/-- `JSON.parse` on a character list: parse one value surrounded by
whitespace only. -/
def jsParseChars (cs : List Char) : Option Json :=
  match parseValueF (cs.length + 1) (skipWs cs) with
  | some (v, r) => if (skipWs r).isEmpty then some v else none
  | none => none

/-- Model of `JSON.parse`. -/
def jsParse (s : String) : Option Json := jsParseChars s.data

/-- A repair collaborator that always fails.  The pipelines below are
parameterized by the third-party `jsonrepair` routine (an external
dependency, not code of this repository); theorems quantify over it where
the result depends on it, and instantiate it with this stub only at inputs
where the repair stage is never consulted or where its outcome is
irrelevant. -/
def noRepair : String → Option String := fun _ => none

/-- The parse/repair stage chain of `OpenAIProvider.parseResponse` applied
to the extracted candidate: direct parse, then `jsonrepair` + parse, then
manual escape normalization + parse; `none` models the final
`Invalid JSON response from AI` throw. -/
def openaiStages (repair : String → Option String) (jsonString : String) : Option Json :=
  match jsParse jsonString with
  | some v => some v
  | none =>
    match repair jsonString with
    | some repaired =>
      match jsParse repaired with
      | some v => some v
      | none => jsParse (manualEscapeFix jsonString)
    | none => jsParse (manualEscapeFix jsonString)

/-- `OpenAIProvider.parseResponse`. -/
def openaiParseResponse (repair : String → Option String) (text : String) : Option Json :=
  openaiStages repair (openaiExtractJson text)

/-- The parse/repair stage chain of `GeminiProvider.parseResponse` (no
manual escape-normalization stage). -/
def geminiStages (repair : String → Option String) (jsonString : String) : Option Json :=
  match jsParse jsonString with
  | some v => some v
  | none =>
    match repair jsonString with
    | some repaired => jsParse repaired
    | none => none

/-- `GeminiProvider.parseResponse`. -/
def geminiParseResponse (repair : String → Option String) (text : String) : Option Json :=
  geminiStages repair (geminiExtractJson text)

/-- Model of `String.prototype.toLowerCase` (ASCII). -/
def lowerStr (s : String) : String := String.mk (s.data.map Char.toLower)

/-- Is `pat` a leading block of `hay`? -/
def leadsChars : List Char → List Char → Bool
  | [], _ => true
  | _ :: _, [] => false
  | p :: ps, h :: hs => p = h && leadsChars ps hs

/-- Model of `String.prototype.includes`. -/
def containsSub (pat : List Char) : List Char → Bool
  | [] => leadsChars pat []
  | h :: hs => leadsChars pat (h :: hs) || containsSub pat hs

def strIncludes (s pat : String) : Bool := containsSub pat.data s.data

def mentionsConn (m : String) : Bool :=
  strIncludes m "fetch failed" || strIncludes m "network" || strIncludes m "connect"

def mentionsParse (m : String) : Bool :=
  strIncludes m "invalid json" || strIncludes m "parse"

def mentionsAuth (m : String) : Bool :=
  strIncludes m "api key" || strIncludes m "unauthorized" || strIncludes m "401"

/-- The classification chain of `handleError` on an `Error` message (both
adapters' `handleError` bodies are textually identical). -/
def classifyError (msg : String) : String :=
  let m := lowerStr msg
  if mentionsConn m then "AI_CONNECTION_FAILED"
  else if mentionsParse m then "AI_RESPONSE_ERROR"
  else if mentionsAuth m then "AI_AUTH_ERROR"
  else "AI_UNKNOWN_ERROR"

/-- `handleError` on an arbitrary thrown value: `some msg` is an `Error`
with that message, `none` a non-`Error` value (which skips every keyword
test). -/
def handleErrorModel : Option String → String
  | some msg => classifyError msg
  | none => "AI_UNKNOWN_ERROR"

/-- The post-network body of `OpenAIProvider.analyzeImage` as a function of
the vendor text: the empty-text check, then the recovery pipeline, with
every failure classified by `handleError`. -/
def openaiAnalyzeStep (repair : String → Option String) (text : String) :
    Except String Json :=
  if text = "" then Except.error (classifyError "Empty response from AI")
  else
    match openaiParseResponse repair text with
    | some v => Except.ok v
    | none => Except.error (classifyError "Invalid JSON response from AI")

/-- The post-network body of `OpenAIProvider.generateSimilarQuestion`
(identical text handling). -/
def openaiGenerateStep (repair : String → Option String) (text : String) :
    Except String Json :=
  if text = "" then Except.error (classifyError "Empty response from AI")
  else
    match openaiParseResponse repair text with
    | some v => Except.ok v
    | none => Except.error (classifyError "Invalid JSON response from AI")

/-- The post-network body of `GeminiProvider.analyzeImage`. -/
def geminiAnalyzeStep (repair : String → Option String) (text : String) :
    Except String Json :=
  if text = "" then Except.error (classifyError "Empty response from AI")
  else
    match geminiParseResponse repair text with
    | some v => Except.ok v
    | none => Except.error (classifyError "Invalid JSON response from AI")

/-- The post-network body of `GeminiProvider.generateSimilarQuestion`. -/
def geminiGenerateStep (repair : String → Option String) (text : String) :
    Except String Json :=
  if text = "" then Except.error (classifyError "Empty response from AI")
  else
    match geminiParseResponse repair text with
    | some v => Except.ok v
    | none => Except.error (classifyError "Invalid JSON response from AI")

/-- The `AIConfig` shape consumed by both constructors. -/
structure AIConfigM where
  apiKey : Option String
  baseUrl : Option String
  modelName : Option String
deriving Repr, DecidableEq

/-- The state a successfully constructed adapter holds; `networkCalls`
counts outbound calls made during construction (the constructors only build
client objects). -/
structure ProviderInit where
  apiKey : String
  baseUrl : Option String
  modelName : String
  networkCalls : Nat
deriving Repr, DecidableEq

/-- `OpenAIProvider`'s constructor: `if (!apiKey) throw`, else build the
client with the configured base URL and model (default `gpt-4o`). -/
def mkOpenAIProvider (cfg : Option AIConfigM) : Except String ProviderInit :=
  match cfg.bind (fun c => c.apiKey) with
  | none => Except.error "OPENAI_API_KEY is required for OpenAI provider"
  | some k =>
    if k = "" then Except.error "OPENAI_API_KEY is required for OpenAI provider"
    else Except.ok ⟨k, cfg.bind (fun c => c.baseUrl),
      (cfg.bind (fun c => c.modelName)).getD "gpt-4o", 0⟩

/-- `GeminiProvider`'s constructor (default model `gemini-1.5-flash`). -/
def mkGeminiProvider (cfg : Option AIConfigM) : Except String ProviderInit :=
  match cfg.bind (fun c => c.apiKey) with
  | none => Except.error "GOOGLE_API_KEY is required for Gemini provider"
  | some k =>
    if k = "" then Except.error "GOOGLE_API_KEY is required for Gemini provider"
    else Except.ok ⟨k, cfg.bind (fun c => c.baseUrl),
      (cfg.bind (fun c => c.modelName)).getD "gemini-1.5-flash", 0⟩

/-- Wrap a text in a fenced code block tagged `json`. -/
def fenceWrap (s : String) : String := "```json\n" ++ s ++ "\n```"

def getField (fields : List (String × Json)) (name : String) : Option Json :=
  (fields.find? (fun p => p.1 == name)).map (fun p => p.2)

def isStrJson : Json → Bool
  | Json.str _ => true
  | _ => false

def strFieldOk (fields : List (String × Json)) (name : String) : Bool :=
  match getField fields name with
  | some (Json.str _) => true
  | _ => false

/-- Modelled from the spec: the Structured Question schema of the data
model (section 3) — the four text fields present as strings and
`knowledgePoints` a sequence of at most 5 strings.  The source declares
this shape as the `ParsedQuestion` type but contains no runtime validator;
this definition is the spec's shape, used to compare the pipeline's actual
output against it. -/
def specWellFormedQuestion : Json → Bool
  | Json.obj fields =>
    strFieldOk fields "questionText" && strFieldOk fields "answerText" &&
    strFieldOk fields "analysis" && strFieldOk fields "subject" &&
    (match getField fields "knowledgePoints" with
     | some (Json.arr xs) => decide (xs.length ≤ 5) && xs.all isStrJson
     | _ => false)
  | _ => false

/-- Characters that are inert for the brace-matching scanner: not a
backslash, quote, or brace. -/
def neutralChar (c : Char) : Prop :=
  c ≠ bslash ∧ c ≠ dquote ∧ c ≠ obrace ∧ c ≠ cbrace

/-- Scan behaviour of the characters consumed by a value parse, at ambient
depth at least one: the state is restored and the loop never breaks. -/
def valScanOK (c : List Char) : Prop :=
  ∀ bc : Int, 1 ≤ bc →
    runScan bc false false c = (bc, false, false) ∧
    scanFind bc false false c = none

/-- Scan behaviour of an object-members chunk (up to and including its
closing brace): the depth drops by one; at depth at least two the loop
never breaks, and at depth exactly one it breaks at the chunk's last
character. -/
def memScanOK (c : List Char) : Prop :=
  ∀ bc : Int,
    (1 ≤ bc → runScan bc false false c = (bc - 1, false, false)) ∧
    (2 ≤ bc → scanFind bc false false c = none) ∧
    (bc = 1 → scanFind bc false false c = some (c.length - 1))

/-- Scan behaviour of a string-literal tail (after the opening quote): the
scanner leaves string mode exactly at the closing quote and never breaks. -/
def strScanOK (c : List Char) : Prop :=
  ∀ bc : Int,
    runScan bc true false c = (bc, false, false) ∧
    scanFind bc true false c = none

/-- The last consumed character of a parse is never whitespace. -/
def lastNonWs (c : List Char) : Prop :=
  ∀ h, c.getLast? = some h → jws h = false

/-- Characters a JSON number lexeme can contain. -/
def numChar (x : Char) : Prop :=
  x = '-' ∨ x = '+' ∨ x = '.' ∨ x = 'e' ∨ x = 'E' ∨ x.isDigit = true

/-- A tail in front of which a consumed chunk re-parses identically: its
head (if any) cannot extend a number lexeme. -/
def tailOK (t : List Char) : Prop :=
  ∀ h, t.head? = some h → h.isDigit = false ∧ h ≠ '.' ∧ h ≠ 'e' ∧ h ≠ 'E'

/-- Everything the induction on the value parser yields: the consumed
prefix, its scan behaviour, the object head/last/break facts, and stability
of the parse under replacement of the rest by any admissible tail at any
fuel above the chunk's length. -/
def VOut (l : List Char) (v : Json) (r : List Char) : Prop :=
  ∃ c, l = c ++ r ∧ c ≠ [] ∧ lastNonWs c ∧ valScanOK c ∧
    (∀ fs, v = Json.obj fs → scanFind 0 false false c = some (c.length - 1) ∧
      c.head? = some obrace ∧ c.getLast? = some cbrace) ∧
    (∀ g t, c.length < g → tailOK t → parseValueF g (c ++ t) = some (v, t))

/-- Induction outcome for the members parser: the chunk ends at the closing
brace and behaves like `memScanOK`. -/
def MOut (l : List Char) (ms : List (String × Json)) (r : List Char) : Prop :=
  ∃ c, l = c ++ r ∧ c ≠ [] ∧ c.getLast? = some cbrace ∧ memScanOK c ∧
    (∀ g t, c.length < g → tailOK t → parseMembersF g (c ++ t) = some (ms, t))

/-- Induction outcome for the elements parser: the chunk ends at the
closing bracket and is scan-inert at positive depth. -/
def EOut (l : List Char) (es : List Json) (r : List Char) : Prop :=
  ∃ c, l = c ++ r ∧ c ≠ [] ∧ c.getLast? = some ']' ∧ valScanOK c ∧
    (∀ g t, c.length < g → tailOK t → parseElemsF g (c ++ t) = some (es, t))

/-- Induction statement for the value parser at one fuel level. -/
def VStmt (f : Nat) : Prop :=
  ∀ l v r, parseValueF f l = some (v, r) → VOut l v r

/-- Induction statement for the members parser at one fuel level. -/
def MStmt (f : Nat) : Prop :=
  ∀ l ms r, parseMembersF f l = some (ms, r) → MOut l ms r

/-- Induction statement for the elements parser at one fuel level. -/
def EStmt (f : Nat) : Prop :=
  ∀ l es r, parseElemsF f l = some (es, r) → EOut l es r

/-! ## Theorems -/

/-- C1 (counterexample): the raw vendor text `{}` is recovered by both
pipelines into an object with every Structured Question field missing —
the pipeline does return a partially-populated value, since no stage
validates the parsed shape. -/
theorem c1_counterexample :
    openaiParseResponse noRepair "\x7b\x7d" = some (Json.obj []) ∧
    geminiParseResponse noRepair "\x7b\x7d" = some (Json.obj []) ∧
    specWellFormedQuestion (Json.obj []) = false :=
  ⟨rfl, rfl, rfl⟩

/-- C1 (amended): each adapter's recovery pipeline either fails explicitly
or returns exactly the value produced by a successful `JSON.parse` of some
candidate string; it performs no schema validation, so the result may be
any JSON value, including a partially-populated object. -/
theorem c1_amended (repair : String → Option String) (text : String) (v : Json) :
    (openaiParseResponse repair text = some v → ∃ c, jsParse c = some v) ∧
    (geminiParseResponse repair text = some v → ∃ c, jsParse c = some v) := by
  constructor
  · intro h
    unfold openaiParseResponse openaiStages at h
    split at h
    next w hj => exact ⟨openaiExtractJson text, hj.trans h⟩
    next hj =>
      split at h
      next rep hr =>
        split at h
        next w2 hp => exact ⟨rep, hp.trans h⟩
        next hp => exact ⟨manualEscapeFix (openaiExtractJson text), h⟩
      next hr => exact ⟨manualEscapeFix (openaiExtractJson text), h⟩
  · intro h
    unfold geminiParseResponse geminiStages at h
    split at h
    next w hj => exact ⟨geminiExtractJson text, hj.trans h⟩
    next hj =>
      split at h
      next rep hr => exact ⟨rep, h⟩
      next hr => exact Option.noConfusion h

/-- C1 (witness): the amended theorem applied at the concrete input `{}`. -/
theorem c1_amended_witness : ∃ c, jsParse c = some (Json.obj []) :=
  (c1_amended noRepair "\x7b\x7d" (Json.obj [])).1 rfl

/-- C2 (counterexample): for the empty vendor text, all four operations
fail with `Empty response from AI`, which the classifier maps to
`AI_UNKNOWN_ERROR` (the message matches no keyword), not to
`AI_RESPONSE_ERROR` as the claim states. -/
theorem c2_counterexample :
    openaiAnalyzeStep noRepair "" = Except.error "AI_UNKNOWN_ERROR" ∧
    geminiAnalyzeStep noRepair "" = Except.error "AI_UNKNOWN_ERROR" ∧
    openaiGenerateStep noRepair "" = Except.error "AI_UNKNOWN_ERROR" ∧
    geminiGenerateStep noRepair "" = Except.error "AI_UNKNOWN_ERROR" ∧
    "AI_UNKNOWN_ERROR" ≠ "AI_RESPONSE_ERROR" :=
  ⟨rfl, rfl, rfl, rfl, by decide⟩

/-- C2 (amended): only exactly-empty vendor text is caught before the
pipeline, and that failure reaches the caller as `AI_UNKNOWN_ERROR`
(independently of the repair collaborator); whitespace-only text is truthy,
passes the check, runs the pipeline, and its exhausted failure surfaces as
`AI_RESPONSE_ERROR`. -/
theorem c2_amended :
    (∀ repair, openaiAnalyzeStep repair "" = Except.error "AI_UNKNOWN_ERROR" ∧
      geminiAnalyzeStep repair "" = Except.error "AI_UNKNOWN_ERROR" ∧
      openaiGenerateStep repair "" = Except.error "AI_UNKNOWN_ERROR" ∧
      geminiGenerateStep repair "" = Except.error "AI_UNKNOWN_ERROR") ∧
    openaiAnalyzeStep noRepair " " = Except.error "AI_RESPONSE_ERROR" ∧
    geminiAnalyzeStep noRepair " " = Except.error "AI_RESPONSE_ERROR" :=
  ⟨fun _ => ⟨rfl, rfl, rfl, rfl⟩, rfl, rfl⟩

/-- C3 (counterexample): on the claim's own example input, the pipeline
succeeds at the direct-parse stage and the manual escape-normalization
stage is never reached; `\f` is a recognized JSON escape, so the
backslash of `\frac` is consumed into a form-feed character — the recovered
`analysis` value contains no backslash at all. -/
theorem c3_counterexample :
    openaiParseResponse noRepair
        "\x7b\"analysis\": \"x = \\frac\x7b1\x7d\x7b2\x7d\"\x7d" =
      some (Json.obj [("analysis", Json.str "x = \x0crac\x7b1\x7d\x7b2\x7d")]) ∧
    geminiParseResponse noRepair
        "\x7b\"analysis\": \"x = \\frac\x7b1\x7d\x7b2\x7d\"\x7d" =
      some (Json.obj [("analysis", Json.str "x = \x0crac\x7b1\x7d\x7b2\x7d")]) ∧
    "x = \x0crac\x7b1\x7d\x7b2\x7d".data.contains bslash = false :=
  ⟨rfl, rfl, rfl⟩

/-- C3 (amended): the manual escape-normalization stage escapes literal
newlines inside quoted strings and doubles every backslash not followed by
a recognized JSON escape character, so an unrecognized sequence such as
`\sqrt` becomes valid JSON preserving the literal backslash; but `\f` is a
recognized escape, so a `\frac` candidate is left untouched by the stage
and already parses at the direct-parse stage to a form feed, not to a
literal backslash. -/
theorem c3_amended :
    (∀ repair, openaiParseResponse repair
        "\x7b\"analysis\": \"x = \\frac\x7b1\x7d\x7b2\x7d\"\x7d" =
      some (Json.obj [("analysis", Json.str "x = \x0crac\x7b1\x7d\x7b2\x7d")])) ∧
    jsParse "\x7b\"analysis\":\"x = \\sqrt\x7b2\x7d\"\x7d" = none ∧
    manualEscapeFix "\x7b\"analysis\":\"x = \\sqrt\x7b2\x7d\"\x7d" =
      "\x7b\"analysis\":\"x = \\\\sqrt\x7b2\x7d\"\x7d" ∧
    jsParse (manualEscapeFix "\x7b\"analysis\":\"x = \\sqrt\x7b2\x7d\"\x7d") =
      some (Json.obj [("analysis", Json.str "x = \\sqrt\x7b2\x7d")]) ∧
    manualEscapeFix "\x7b\"analysis\": \"x = \\frac\x7b1\x7d\x7b2\x7d\"\x7d" =
      "\x7b\"analysis\": \"x = \\frac\x7b1\x7d\x7b2\x7d\"\x7d" ∧
    cleanJson "\x7b\"a\":\"l1\nl2\"\x7d" = "\x7b\"a\":\"l1\\nl2\"\x7d" :=
  ⟨fun _ => rfl, rfl, rfl, rfl, rfl, rfl⟩

/-- C4: every failure is classified deterministically into exactly one of
the four tags, by the ordered keyword rules of `handleError`; non-`Error`
thrown values classify as `AI_UNKNOWN_ERROR`. -/
theorem c4_classification (e : Option String) :
    (handleErrorModel e = "AI_CONNECTION_FAILED" ∨
     handleErrorModel e = "AI_RESPONSE_ERROR" ∨
     handleErrorModel e = "AI_AUTH_ERROR" ∨
     handleErrorModel e = "AI_UNKNOWN_ERROR") ∧
    (∀ msg, e = some msg →
      (mentionsConn (lowerStr msg) = true →
        handleErrorModel e = "AI_CONNECTION_FAILED") ∧
      (mentionsConn (lowerStr msg) = false → mentionsParse (lowerStr msg) = true →
        handleErrorModel e = "AI_RESPONSE_ERROR") ∧
      (mentionsConn (lowerStr msg) = false → mentionsParse (lowerStr msg) = false →
        mentionsAuth (lowerStr msg) = true →
        handleErrorModel e = "AI_AUTH_ERROR") ∧
      (mentionsConn (lowerStr msg) = false → mentionsParse (lowerStr msg) = false →
        mentionsAuth (lowerStr msg) = false →
        handleErrorModel e = "AI_UNKNOWN_ERROR")) ∧
    (e = none → handleErrorModel e = "AI_UNKNOWN_ERROR") := by
  cases e with
  | none =>
    refine ⟨Or.inr (Or.inr (Or.inr rfl)), ?_, fun _ => rfl⟩
    intro msg h
    cases h
  | some msg =>
    refine ⟨?_, ?_, by intro h; cases h⟩
    · simp only [handleErrorModel, classifyError]
      by_cases h1 : mentionsConn (lowerStr msg) = true
      · simp [h1]
      · by_cases h2 : mentionsParse (lowerStr msg) = true
        · simp [h1, h2]
        · by_cases h3 : mentionsAuth (lowerStr msg) = true
          · simp [h1, h2, h3]
          · simp [h1, h2, h3]
    · intro m hm
      cases hm
      refine ⟨?_, ?_, ?_, ?_⟩
      · intro h1; simp [handleErrorModel, classifyError, h1]
      · intro h1 h2; simp [handleErrorModel, classifyError, h1, h2]
      · intro h1 h2 h3; simp [handleErrorModel, classifyError, h1, h2, h3]
      · intro h1 h2 h3; simp [handleErrorModel, classifyError, h1, h2, h3]

/-- C4 (witness): the classification theorem applied to the spec's own
test vectors. -/
theorem c4_classification_witness :
    handleErrorModel (some "fetch failed") = "AI_CONNECTION_FAILED" ∧
    handleErrorModel (some "Request failed with status 401") = "AI_AUTH_ERROR" ∧
    handleErrorModel (some "quota exceeded") = "AI_UNKNOWN_ERROR" ∧
    handleErrorModel none = "AI_UNKNOWN_ERROR" :=
  ⟨((c4_classification (some "fetch failed")).2.1 "fetch failed" rfl).1 (by rfl),
   (((c4_classification (some "Request failed with status 401")).2.1
      "Request failed with status 401" rfl).2.2.1 (by rfl) (by rfl) (by rfl)),
   (((c4_classification (some "quota exceeded")).2.1
      "quota exceeded" rfl).2.2.2 (by rfl) (by rfl) (by rfl)),
   (c4_classification none).2.2 rfl⟩

/-- C5: brace-matched extraction ignores braces inside quoted strings and
respects backslash-escaped quotes: on the spec's prose-wrapped example with
a literal brace in a string value it returns the full object, and likewise
with an escaped quote followed by a brace inside a string. -/
theorem c5_brace_matched_extraction :
    geminiExtractJson
        "prefix \x7b\"questionText\":\"solve \x7bx\x7d\", \"answerText\":\"1\", \"analysis\":\"a\", \"subject\":\"math\", \"knowledgePoints\":[]\x7d suffix" =
      "\x7b\"questionText\":\"solve \x7bx\x7d\", \"answerText\":\"1\", \"analysis\":\"a\", \"subject\":\"math\", \"knowledgePoints\":[]\x7d" ∧
    geminiExtractJson
        "pre \x7b\"questionText\":\"he said \\\"hi\x7d there\\\"\",\"knowledgePoints\":[]\x7d post" =
      "\x7b\"questionText\":\"he said \\\"hi\x7d there\\\"\",\"knowledgePoints\":[]\x7d" :=
  ⟨rfl, rfl⟩

/-- C6 (counterexample): on input with a `\x7b` but no `\x7d` at all, the
Gemini extraction returns the input unchanged — it does not fall back to
taking from the first opening brace to the end of the string. -/
theorem c6_counterexample :
    geminiExtractJson "abc\x7bdef" = "abc\x7bdef" ∧
    geminiExtractJson "abc\x7bdef" ≠ "\x7bdef" :=
  ⟨rfl, by decide⟩

/-- C6 (amended): the OpenAI extraction always uses the
first-brace-to-last-brace slice and, when no closing brace follows the
first opening one, falls back to first-brace-to-end; the Gemini extraction
falls back from a failed matching scan to first-brace-to-last-brace, but
when no closing brace follows the first opening one it returns the input
text unchanged (it has no first-brace-to-end fallback). -/
theorem c6_amended :
    openaiExtractJson "x\x7b\"a\":1\x7d y \x7d z" = "\x7b\"a\":1\x7d y \x7d" ∧
    openaiExtractJson "x\x7b\"a\":1" = "\x7b\"a\":1" ∧
    geminiExtractJson "pre\x7b\"a\":\x7b\x7d" = "\x7b\"a\":\x7b\x7d" ∧
    geminiExtractJson "abc\x7bdef" = "abc\x7bdef" :=
  ⟨rfl, rfl, rfl, rfl⟩

/-- C7 (counterexample): a syntactically valid JSON object matching the
Structured Question schema whose `questionText` contains fence markers is
mangled by block extraction: the pipeline returns the number `1` parsed
from between the inner fences, not the object the input denotes. -/
theorem c7_counterexample :
    jsParse
        "\x7b\"questionText\":\"```1```\",\"answerText\":\"a\",\"analysis\":\"b\",\"subject\":\"math\",\"knowledgePoints\":[]\x7d" =
      some (Json.obj [("questionText", Json.str "```1```"),
        ("answerText", Json.str "a"), ("analysis", Json.str "b"),
        ("subject", Json.str "math"), ("knowledgePoints", Json.arr [])]) ∧
    specWellFormedQuestion (Json.obj [("questionText", Json.str "```1```"),
        ("answerText", Json.str "a"), ("analysis", Json.str "b"),
        ("subject", Json.str "math"), ("knowledgePoints", Json.arr [])]) = true ∧
    openaiParseResponse noRepair
        "\x7b\"questionText\":\"```1```\",\"answerText\":\"a\",\"analysis\":\"b\",\"subject\":\"math\",\"knowledgePoints\":[]\x7d" =
      some (Json.num "1") ∧
    geminiParseResponse noRepair
        "\x7b\"questionText\":\"```1```\",\"answerText\":\"a\",\"analysis\":\"b\",\"subject\":\"math\",\"knowledgePoints\":[]\x7d" =
      some (Json.num "1") ∧
    Json.num "1" ≠ Json.obj [("questionText", Json.str "```1```"),
        ("answerText", Json.str "a"), ("analysis", Json.str "b"),
        ("subject", Json.str "math"), ("knowledgePoints", Json.arr [])] :=
  ⟨rfl, rfl, rfl, rfl, fun h => Json.noConfusion h⟩

/-- Equation of the fence search exposing three characters. -/
theorem findTriple_cons3 (a b c : Char) (r : List Char) :
    findTriple (a :: b :: c :: r) =
      if a = btick ∧ b = btick ∧ c = btick then some 0
      else (findTriple (b :: c :: r)).map (· + 1) := rfl

/-- If the head is not a backtick, the fence search just shifts by one. -/
theorem findTriple_cons (c : Char) (cs : List Char) (h : c ≠ btick) :
    findTriple (c :: cs) = (findTriple cs).map (· + 1) := by
  match cs with
  | [] => simp [findTriple]
  | [b] => simp [findTriple]
  | b :: d :: r => rw [findTriple_cons3, if_neg (fun hc => h hc.1)]

/-- A fence-free list stays fence-free after dropping its head. -/
theorem findTriple_tail (a : Char) (cs : List Char)
    (h : findTriple (a :: cs) = none) : findTriple cs = none := by
  match cs with
  | [] => simp [findTriple]
  | [b] => simp [findTriple]
  | b :: d :: r =>
    rw [findTriple_cons3] at h
    split at h
    next => cases h
    next =>
      cases hf : findTriple (b :: d :: r) with
      | none => rfl
      | some k => simp [hf] at h

/-- Appending a newline and a closing fence to a fence-free list puts the
first fence right after the newline. -/
theorem findTriple_fence (xs : List Char) (h : findTriple xs = none) :
    findTriple (xs ++ '\n' :: btick :: btick :: btick :: []) =
      some (xs.length + 1) := by
  induction xs with
  | nil => decide
  | cons x xs' ih =>
    have hx : findTriple xs' = none := findTriple_tail x xs' h
    have ih' := ih hx
    rcases xs' with _ | ⟨y, _ | ⟨z, rest⟩⟩
    · simp only [List.cons_append, List.nil_append]
      rw [findTriple_cons3, if_neg (fun hc => absurd hc.2.1 (by decide))]
      rw [show findTriple ('\n' :: btick :: btick :: btick :: []) = some 1 from by decide]
      simp
    · simp only [List.cons_append, List.nil_append]
      rw [findTriple_cons3, if_neg (fun hc => absurd hc.2.2 (by decide))]
      rw [findTriple_cons3, if_neg (fun hc => absurd hc.2.1 (by decide))]
      rw [show findTriple ('\n' :: btick :: btick :: btick :: []) = some 1 from by decide]
      simp
    · simp only [List.cons_append] at ih' ⊢
      have hcond : ¬(x = btick ∧ y = btick ∧ z = btick) := by
        intro hc
        rw [hc.1, hc.2.1, hc.2.2] at h
        rw [findTriple_cons3, if_pos ⟨rfl, rfl, rfl⟩] at h
        cases h
      rw [findTriple_cons3, if_neg hcond, ih']
      simp

/-- Trimming is unaffected by one layer of newline padding. -/
theorem trimChars_pad (cs : List Char) :
    trimChars ('\n' :: cs ++ ['\n']) = trimChars cs := by
  unfold trimChars
  have h1 : List.dropWhile jsTrimWs ('\n' :: (cs ++ ['\n'])) =
      List.dropWhile jsTrimWs (cs ++ ['\n']) := by
    rw [List.dropWhile_cons, if_pos (by decide)]
  rw [List.cons_append, h1, List.dropWhile_append]
  by_cases he : (List.dropWhile jsTrimWs cs).isEmpty = true
  · rw [if_pos he]
    rw [List.isEmpty_iff] at he
    rw [he]
    rfl
  · rw [if_neg he]
    rw [List.reverse_append]
    rw [show (['\n'] : List Char).reverse ++ (List.dropWhile jsTrimWs cs).reverse =
        '\n' :: (List.dropWhile jsTrimWs cs).reverse from rfl]
    rw [List.dropWhile_cons, if_pos (by decide)]

/-- Trimming leaves a list with non-whitespace first and last characters
unchanged. -/
theorem trimChars_eq_self (a b : Char) (ys : List Char)
    (ha : jsTrimWs a = false) (hb : jsTrimWs b = false) :
    trimChars (a :: ys ++ [b]) = a :: ys ++ [b] := by
  unfold trimChars
  rw [List.cons_append, List.dropWhile_cons, ha]
  rw [if_neg (by simp)]
  have h2 : (a :: (ys ++ [b])).reverse = b :: (a :: ys).reverse := by
    rw [show a :: (ys ++ [b]) = (a :: ys) ++ [b] from rfl, List.reverse_append]
    rfl
  rw [h2, List.dropWhile_cons, hb, if_neg (by simp)]
  rw [List.reverse_cons, List.reverse_reverse]
  rfl

/-- The character-list shape of a fence-wrapped text. -/
theorem fenceWrap_data (X : String) :
    (fenceWrap X).data =
      btick :: btick :: btick :: 'j' :: 's' :: 'o' :: 'n' :: '\n' ::
        (X.data ++ '\n' :: btick :: btick :: btick :: []) := by
  have h1 : (fenceWrap X).data = "```json\n".data ++ X.data ++ "\n```".data := by
    simp [fenceWrap]
  rw [h1]
  rw [show "```json\n".data =
      btick :: btick :: btick :: 'j' :: 's' :: 'o' :: 'n' :: '\n' :: [] from by decide]
  rw [show "\n```".data = '\n' :: btick :: btick :: btick :: [] from by decide]
  simp

/-- Block extraction on a fence-wrapped fence-free text recovers the
trimmed text. -/
theorem codeBlockExtract_fenceWrap (X : String) (h : findTriple X.data = none) :
    codeBlockExtract (fenceWrap X).data = some (trimChars X.data) := by
  have hn : findTriple ('\n' :: X.data) = none := by
    rw [findTriple_cons '\n' X.data (by decide), h]
    rfl
  have hf := findTriple_fence ('\n' :: X.data) hn
  simp only [List.cons_append, List.length_cons] at hf
  rw [fenceWrap_data]
  have h0 : findTriple (btick :: btick :: btick :: 'j' :: 's' :: 'o' :: 'n' :: '\n' ::
      (X.data ++ '\n' :: btick :: btick :: btick :: [])) = some 0 := by
    rw [findTriple_cons3, if_pos ⟨rfl, rfl, rfl⟩]
  unfold codeBlockExtract
  rw [h0]
  simp only [List.drop_zero, List.drop_succ_cons]
  rw [show dropJsonTag ('j' :: 's' :: 'o' :: 'n' :: '\n' ::
      (X.data ++ '\n' :: btick :: btick :: btick :: [])) =
      '\n' :: (X.data ++ '\n' :: btick :: btick :: btick :: []) from rfl]
  rw [hf]
  have htake : List.take (X.data.length + 1 + 1)
      ('\n' :: (X.data ++ '\n' :: btick :: btick :: btick :: [])) =
      '\n' :: (X.data ++ ['\n']) := by
    rw [show '\n' :: (X.data ++ '\n' :: btick :: btick :: btick :: []) =
        ('\n' :: (X.data ++ ['\n'])) ++ (btick :: btick :: btick :: []) from by simp]
    refine List.take_left' ?_
    simp
  show some (trimChars (List.take (X.data.length + 1 + 1)
      ('\n' :: (X.data ++ '\n' :: btick :: btick :: btick :: [])))) =
    some (trimChars X.data)
  rw [htake]
  exact congrArg some (trimChars_pad X.data)

/-- C8 (amended): fencing bypasses extraction.  For a fence-free candidate
`X`, both extractions on the fenced text return exactly `trim X`, so each
pipeline applied to the fenced text equals its parse/repair stage chain
applied directly to `trim X`; this agrees with the unfenced pipeline only
when unfenced extraction happens to return the trimmed text itself. -/
theorem c8_amended (X : String) (h : findTriple X.data = none) :
    openaiExtractJson (fenceWrap X) = trimStr X ∧
    geminiExtractJson (fenceWrap X) = trimStr X ∧
    (∀ repair, openaiParseResponse repair (fenceWrap X) =
        openaiStages repair (trimStr X) ∧
      geminiParseResponse repair (fenceWrap X) =
        geminiStages repair (trimStr X)) := by
  have hcb := codeBlockExtract_fenceWrap X h
  have htrim : trimChars (fenceWrap X).data = (fenceWrap X).data := by
    rw [fenceWrap_data]
    have := trimChars_eq_self btick btick
      (btick :: btick :: 'j' :: 's' :: 'o' :: 'n' :: '\n' ::
        (X.data ++ '\n' :: btick :: btick :: [])) (by decide) (by decide)
    simpa using this
  have hopen : openaiExtractJson (fenceWrap X) = trimStr X := by
    unfold openaiExtractJson openaiExtractChars openaiExtractCore
    rw [htrim, hcb]
    rfl
  have hgem : geminiExtractJson (fenceWrap X) = trimStr X := by
    unfold geminiExtractJson geminiExtractChars
    rw [hcb]
    rfl
  refine ⟨hopen, hgem, fun repair => ⟨?_, ?_⟩⟩
  · unfold openaiParseResponse
    rw [hopen]
  · unfold geminiParseResponse
    rw [hgem]

/-- C8 (witness): the amended theorem applied at a concrete fence-free
candidate. -/
theorem c8_amended_witness :
    openaiExtractJson (fenceWrap "\x7b\"a\":1\x7d") = trimStr "\x7b\"a\":1\x7d" ∧
    geminiExtractJson (fenceWrap "\x7b\"a\":1\x7d") = trimStr "\x7b\"a\":1\x7d" :=
  ⟨(c8_amended "\x7b\"a\":1\x7d" rfl).1, (c8_amended "\x7b\"a\":1\x7d" rfl).2.1⟩

/-- C8 (counterexample): wrapping a candidate in a fenced code block does
not commute with the pipeline: for `[{"a":1}]`, the unfenced run
brace-extracts the inner object while the fenced run parses the whole
array, both at the direct-parse stage — two different results. -/
theorem c8_counterexample :
    openaiParseResponse noRepair "[\x7b\"a\":1\x7d]" =
      some (Json.obj [("a", Json.num "1")]) ∧
    openaiParseResponse noRepair (fenceWrap "[\x7b\"a\":1\x7d]") =
      some (Json.arr [Json.obj [("a", Json.num "1")]]) ∧
    geminiParseResponse noRepair "[\x7b\"a\":1\x7d]" =
      some (Json.obj [("a", Json.num "1")]) ∧
    geminiParseResponse noRepair (fenceWrap "[\x7b\"a\":1\x7d]") =
      some (Json.arr [Json.obj [("a", Json.num "1")]]) ∧
    Json.obj [("a", Json.num "1")] ≠ Json.arr [Json.obj [("a", Json.num "1")]] :=
  ⟨rfl, rfl, rfl, rfl, fun h => Json.noConfusion h⟩

/-- C9: when the API key is absent both constructors fail immediately with
their configuration error, and a successful construction always holds a
non-empty key and has made no network call. -/
theorem c9_construction (cfg : Option AIConfigM) :
    (cfg.bind (fun c => c.apiKey) = none →
      mkOpenAIProvider cfg = Except.error "OPENAI_API_KEY is required for OpenAI provider" ∧
      mkGeminiProvider cfg = Except.error "GOOGLE_API_KEY is required for Gemini provider") ∧
    (∀ st, mkOpenAIProvider cfg = Except.ok st → st.networkCalls = 0 ∧ st.apiKey ≠ "") ∧
    (∀ st, mkGeminiProvider cfg = Except.ok st → st.networkCalls = 0 ∧ st.apiKey ≠ "") := by
  refine ⟨?_, ?_, ?_⟩
  · intro h
    constructor
    · unfold mkOpenAIProvider; rw [h]
    · unfold mkGeminiProvider; rw [h]
  · intro st h
    unfold mkOpenAIProvider at h
    split at h
    next hk => cases h
    next k hk =>
      split at h
      next hke => cases h
      next hke => cases h; exact ⟨rfl, hke⟩
  · intro st h
    unfold mkGeminiProvider at h
    split at h
    next hk => cases h
    next k hk =>
      split at h
      next hke => cases h
      next hke => cases h; exact ⟨rfl, hke⟩

/-- C9 (witness): the construction theorem applied to the absent
configuration. -/
theorem c9_construction_witness :
    mkOpenAIProvider none = Except.error "OPENAI_API_KEY is required for OpenAI provider" ∧
    mkGeminiProvider none = Except.error "GOOGLE_API_KEY is required for Gemini provider" :=
  (c9_construction none).1 rfl

/-- C10: the brace-matching scan is a bounded single pass — it performs at
most one loop iteration per character of the scanned text, any break index
is inside the text, and on a break the number of characters visited is
exactly the break index plus one. -/
theorem c10_single_pass (cs : List Char) :
    ∀ (bc : Int) (inStr esc : Bool),
      scanSteps bc inStr esc cs ≤ cs.length ∧
      (∀ k, scanFind bc inStr esc cs = some k →
        k < cs.length ∧ scanSteps bc inStr esc cs = k + 1) := by
  induction cs with
  | nil =>
    intro bc inStr esc
    exact ⟨Nat.le_refl 0, fun k h => by cases h⟩
  | cons c rest ih =>
    intro bc inStr esc
    by_cases hcl : isClosing bc inStr esc c = true
    · constructor
      · simp only [scanSteps, if_pos hcl, List.length_cons]
        exact Nat.succ_le_succ (Nat.zero_le _)
      · intro k h
        simp only [scanFind, if_pos hcl, Option.some.injEq] at h
        subst h
        exact ⟨Nat.succ_le_succ (Nat.zero_le _), by simp [scanSteps, hcl]⟩
    · have hcl' : isClosing bc inStr esc c = false := by
        revert hcl; cases isClosing bc inStr esc c <;> simp
      constructor
      · simp only [scanSteps, if_neg hcl, List.length_cons]
        have := (ih (scanStep bc inStr esc c).1 (scanStep bc inStr esc c).2.1
          (scanStep bc inStr esc c).2.2).1
        omega
      · intro k h
        simp only [scanFind, if_neg hcl] at h
        cases hk : scanFind (scanStep bc inStr esc c).1 (scanStep bc inStr esc c).2.1
            (scanStep bc inStr esc c).2.2 rest with
        | none => rw [hk] at h; cases h
        | some k0 =>
          rw [hk] at h
          simp only [Option.map_some', Option.some.injEq] at h
          subst h
          have h2 := (ih (scanStep bc inStr esc c).1 (scanStep bc inStr esc c).2.1
            (scanStep bc inStr esc c).2.2).2 k0 hk
          constructor
          · simp only [List.length_cons]; omega
          · simp only [scanSteps, if_neg hcl]; omega

/-- C10 (witness): the single-pass theorem applied at a concrete scan. -/
theorem c10_single_pass_witness :
    (0 : Nat) < ([cbrace] : List Char).length ∧
    scanSteps 1 false false [cbrace] = 0 + 1 :=
  (c10_single_pass [cbrace] 1 false false).2 0 rfl

/-! ## Scanner composition lemmas -/

theorem runScan_cons (bc : Int) (inStr esc : Bool) (c : Char) (cs : List Char) :
    runScan bc inStr esc (c :: cs) =
      runScan (scanStep bc inStr esc c).1 (scanStep bc inStr esc c).2.1
        (scanStep bc inStr esc c).2.2 cs := rfl

theorem scanFind_cons (bc : Int) (inStr esc : Bool) (c : Char) (cs : List Char) :
    scanFind bc inStr esc (c :: cs) =
      if isClosing bc inStr esc c then some 0
      else
        (scanFind (scanStep bc inStr esc c).1 (scanStep bc inStr esc c).2.1
          (scanStep bc inStr esc c).2.2 cs).map (· + 1) := rfl

theorem scanStep_neutral (bc : Int) (inStr : Bool) (c : Char) (h : neutralChar c) :
    scanStep bc inStr false c = (bc, inStr, false) := by
  obtain ⟨h1, h2, h3, h4⟩ := h
  simp [scanStep, h1, h2, h3, h4]

theorem isClosing_not_cbrace (bc : Int) (inStr esc : Bool) (c : Char)
    (h : c ≠ cbrace) : isClosing bc inStr esc c = false := by
  simp [isClosing, h]

theorem isClosing_inStr (bc : Int) (esc : Bool) (c : Char) :
    isClosing bc true esc c = false := by
  simp [isClosing]

theorem scanStep_inStr (bc : Int) (c : Char) (h1 : c ≠ bslash) (h2 : c ≠ dquote) :
    scanStep bc true false c = (bc, true, false) := by
  simp [scanStep, h1, h2]

theorem runScan_append (xs ys : List Char) : ∀ (bc : Int) (inStr esc : Bool),
    runScan bc inStr esc (xs ++ ys) =
      runScan (runScan bc inStr esc xs).1 (runScan bc inStr esc xs).2.1
        (runScan bc inStr esc xs).2.2 ys := by
  induction xs with
  | nil => intro bc i e; rfl
  | cons c rest ih =>
    intro bc i e
    rw [List.cons_append, runScan_cons, ih, runScan_cons]

theorem scanFind_append_none (xs : List Char) : ∀ (ys : List Char) (bc : Int)
    (inStr esc : Bool), scanFind bc inStr esc xs = none →
    scanFind bc inStr esc (xs ++ ys) =
      (scanFind (runScan bc inStr esc xs).1 (runScan bc inStr esc xs).2.1
        (runScan bc inStr esc xs).2.2 ys).map (· + xs.length) := by
  induction xs with
  | nil =>
    intro ys bc i e _
    show scanFind bc i e ys = (scanFind bc i e ys).map (· + 0)
    cases scanFind bc i e ys <;> simp
  | cons c rest ih =>
    intro ys bc i e h
    rw [scanFind_cons] at h
    by_cases hc : isClosing bc i e c = true
    · rw [if_pos hc] at h; cases h
    · rw [if_neg hc] at h
      have h2 : scanFind (scanStep bc i e c).1 (scanStep bc i e c).2.1
          (scanStep bc i e c).2.2 rest = none := by
        cases hx : scanFind (scanStep bc i e c).1 (scanStep bc i e c).2.1
            (scanStep bc i e c).2.2 rest with
        | none => rfl
        | some k => rw [hx] at h; cases h
      rw [List.cons_append, scanFind_cons, if_neg hc, ih ys _ _ _ h2,
        runScan_cons]
      cases scanFind (runScan (scanStep bc i e c).1 (scanStep bc i e c).2.1
          (scanStep bc i e c).2.2 rest).1
          (runScan (scanStep bc i e c).1 (scanStep bc i e c).2.1
            (scanStep bc i e c).2.2 rest).2.1
          (runScan (scanStep bc i e c).1 (scanStep bc i e c).2.1
            (scanStep bc i e c).2.2 rest).2.2 ys with
      | none => simp
      | some k => simp; omega

theorem scanFind_append_some (xs ys : List Char) (bc : Int) (inStr esc : Bool)
    (k : Nat) (h : scanFind bc inStr esc xs = some k) :
    scanFind bc inStr esc (xs ++ ys) = some k := by
  induction xs generalizing bc inStr esc k with
  | nil => cases h
  | cons c rest ih =>
    rw [scanFind_cons] at h
    rw [List.cons_append, scanFind_cons]
    by_cases hc : isClosing bc inStr esc c = true
    · rw [if_pos hc] at h ⊢; exact h
    · rw [if_neg hc] at h ⊢
      cases hx : scanFind (scanStep bc inStr esc c).1 (scanStep bc inStr esc c).2.1
          (scanStep bc inStr esc c).2.2 rest with
      | none => rw [hx] at h; cases h
      | some k0 =>
        rw [hx] at h
        rw [ih _ _ _ _ hx]
        exact h

/-- A list of neutral characters leaves the scanner state unchanged and
never breaks (escape off). -/
theorem scan_neutral_list (xs : List Char) (hn : ∀ x ∈ xs, neutralChar x) :
    ∀ (bc : Int) (inStr : Bool),
      runScan bc inStr false xs = (bc, inStr, false) ∧
      scanFind bc inStr false xs = none := by
  induction xs with
  | nil => intro bc i; exact ⟨rfl, rfl⟩
  | cons c rest ih =>
    intro bc i
    have hc := hn c (List.mem_cons_self c rest)
    have hrest : ∀ x ∈ rest, neutralChar x := fun x hx => hn x (List.mem_cons_of_mem c hx)
    constructor
    · rw [runScan_cons, scanStep_neutral bc i c hc]
      exact (ih hrest bc i).1
    · rw [scanFind_cons, if_neg (by rw [isClosing_not_cbrace bc i false c hc.2.2.2]; simp),
        scanStep_neutral bc i c hc, (ih hrest bc i).2]
      rfl

/-- Whitespace characters are neutral for the scanner. -/
theorem jws_neutral (c : Char) (h : jws c = true) : neutralChar c := by
  have : c = ' ' ∨ c = '\t' ∨ c = '\n' ∨ c = '\r' := by
    revert h
    unfold jws
    by_cases h1 : c = ' ' <;> by_cases h2 : c = '\t' <;> by_cases h3 : c = '\n' <;>
      by_cases h4 : c = '\r' <;> simp [h1, h2, h3, h4]
  rcases this with h | h | h | h <;> subst h <;> exact ⟨by decide, by decide, by decide, by decide⟩

/-! ## Whitespace and list-splitting lemmas -/

theorem skipWs_decomp (l : List Char) : l = l.takeWhile jws ++ skipWs l :=
  (List.takeWhile_append_dropWhile jws l).symm

theorem skipWs_append_nonws (a m : List Char) (ha : ∀ x ∈ a, jws x = true)
    (hm : ∀ h, m.head? = some h → jws h = false) : skipWs (a ++ m) = m := by
  induction a with
  | nil =>
    cases m with
    | nil => rfl
    | cons c r =>
      show List.dropWhile jws (c :: r) = c :: r
      rw [List.dropWhile_cons, hm c rfl]
      simp
  | cons x a' ih =>
    show List.dropWhile jws (x :: (a' ++ m)) = m
    rw [List.dropWhile_cons, ha x (List.mem_cons_self x a'), if_pos rfl]
    exact ih (fun y hy => ha y (List.mem_cons_of_mem x hy))

theorem dropWhile_append_nonempty {p : Char → Bool} (a b : List Char) (c0 : Char)
    (r : List Char) (h : List.dropWhile p a = c0 :: r) :
    List.dropWhile p (a ++ b) = c0 :: (r ++ b) := by
  induction a with
  | nil => cases h
  | cons x a' ih =>
    rw [List.cons_append, List.dropWhile_cons]
    rw [List.dropWhile_cons] at h
    by_cases hx : p x = true
    · rw [if_pos hx] at h ⊢
      exact ih h
    · rw [if_neg hx] at h ⊢
      injection h with h1 h2
      subst h1
      subst h2
      rfl

theorem split_prefix_le (a b c d : List Char) (h : a ++ b = c ++ d)
    (hle : a.length ≤ c.length) : ∃ e, c = a ++ e ∧ b = e ++ d := by
  refine ⟨c.drop a.length, ?_, ?_⟩
  · have h1 : a = (c ++ d).take a.length := by
      rw [← h, List.take_left]
    have h2 : (c ++ d).take a.length = c.take a.length :=
      List.take_append_of_le_length hle
    conv_lhs => rw [← List.take_append_drop a.length c]
    rw [← h2, ← h1]
  · have hc : c = a ++ c.drop a.length := by
      have h1 : a = (c ++ d).take a.length := by
        rw [← h, List.take_left]
      have h2 : (c ++ d).take a.length = c.take a.length :=
        List.take_append_of_le_length hle
      conv_lhs => rw [← List.take_append_drop a.length c]
      rw [← h2, ← h1]
    rw [hc, List.append_assoc] at h
    exact List.append_cancel_left h

/-- A parse whose consumed part ends in a non-whitespace character cannot
have consumed past the start of an all-whitespace suffix. -/
theorem consumed_within (z r c rest : List Char)
    (h : z ++ r = c ++ rest) (hws : ∀ x ∈ r, jws x = true)
    (hlast : lastNonWs c) (_hc : c ≠ []) :
    c.length ≤ z.length := by
  by_contra hgt
  push_neg at hgt
  obtain ⟨e, hce, hre⟩ := split_prefix_le z r c rest h (Nat.le_of_lt hgt)
  have he : e ≠ [] := by
    intro h0
    rw [h0, List.append_nil] at hce
    rw [hce] at hgt
    exact Nat.lt_irrefl _ hgt
  obtain ⟨x, hx⟩ := Option.isSome_iff_exists.mp (List.getLast?_isSome.mpr he)
  have hxc : c.getLast? = some x := by
    rw [hce, List.getLast?_append, hx]
    rfl
  have hxr : x ∈ r := by
    rw [hre]
    exact List.mem_append_left rest (List.mem_of_mem_getLast? hx)
  exact absurd (hws x hxr) (by rw [hlast x hxc]; simp)

/-- Align an intermediate parser rest with the all-whitespace global
suffix: the rest is the leftover of the local slice followed by the global
suffix. -/
theorem rest_ws_align (z r c rest : List Char)
    (h : z ++ r = c ++ rest) (hws : ∀ x ∈ r, jws x = true)
    (hlast : lastNonWs c) (hc : c ≠ []) :
    ∃ y, z = c ++ y ∧ rest = y ++ r := by
  exact split_prefix_le c rest z r h.symm (consumed_within z r c rest h hws hlast hc)

/-! ## String-literal consumption -/

theorem isClosing_esc (bc : Int) (inStr : Bool) (c : Char) :
    isClosing bc inStr true c = false := by simp [isClosing]

theorem scanStep_esc (bc : Int) (inStr : Bool) (c : Char) :
    scanStep bc inStr true c = (bc, inStr, false) := by simp [scanStep]

theorem scanStep_bslash (bc : Int) (inStr : Bool) :
    scanStep bc inStr false bslash = (bc, inStr, true) := by
  unfold scanStep
  rw [if_neg (by decide), if_pos rfl]

theorem scanStep_dquote (bc : Int) (inStr : Bool) :
    scanStep bc inStr false dquote = (bc, !inStr, false) := by
  unfold scanStep
  rw [if_neg (by decide), if_neg (by decide), if_pos rfl]

theorem hexVal_ne (h : Char) (a : Nat) (hs : hexVal h = some a) :
    h ≠ bslash ∧ h ≠ dquote := by
  unfold hexVal at hs
  split_ifs at hs with h1 h2 h3
  · exact ⟨fun he => by subst he; revert h1; decide,
           fun he => by subst he; revert h1; decide⟩
  · exact ⟨fun he => by subst he; revert h2; decide,
           fun he => by subst he; revert h2; decide⟩
  · exact ⟨fun he => by subst he; revert h3; decide,
           fun he => by subst he; revert h3; decide⟩

/-- Compose string-mode scan facts for a prefix with those of the rest. -/
theorem strScanOK_prefix (xs c' : List Char)
    (hx : ∀ bc : Int, runScan bc true false xs = (bc, true, false) ∧
      scanFind bc true false xs = none)
    (hc : strScanOK c') : strScanOK (xs ++ c') := by
  intro bc
  constructor
  · rw [runScan_append, (hx bc).1]
    exact (hc bc).1
  · rw [scanFind_append_none xs c' bc true false (hx bc).2, (hx bc).1, (hc bc).2]
    rfl

/-- Unfolding equation: the string parser at a generic head character. -/
theorem parseStrTail_cons (c : Char) (r : List Char) :
    parseStrTail (c :: r) =
      if c = dquote then some ([], r)
      else if c = bslash then
        match r with
        | [] => none
        | e :: r2 =>
          if e = 'u' then
            match r2 with
            | h1 :: h2 :: h3 :: h4 :: r3 =>
              match hexVal h1, hexVal h2, hexVal h3, hexVal h4 with
              | some a, some b, some c4, some d =>
                (parseStrTail r3).map
                  (fun p => (Char.ofNat (4096 * a + 256 * b + 16 * c4 + d) :: p.1, p.2))
              | _, _, _, _ => none
            | _ => none
          else
            match escChar e with
            | some ec => (parseStrTail r2).map (fun p => (ec :: p.1, p.2))
            | none => none
      else if c.toNat < 32 then none
      else (parseStrTail r).map (fun p => (c :: p.1, p.2)) := by
  rw [parseStrTail.eq_def]

/-- Unfolding equation: the string parser at the `\u` escape. -/
theorem parseStrTail_u (h1 h2 h3 h4 : Char) (r3 : List Char) :
    parseStrTail (bslash :: 'u' :: h1 :: h2 :: h3 :: h4 :: r3) =
      match hexVal h1, hexVal h2, hexVal h3, hexVal h4 with
      | some a, some b, some c4, some d =>
        (parseStrTail r3).map
          (fun p => (Char.ofNat (4096 * a + 256 * b + 16 * c4 + d) :: p.1, p.2))
      | _, _, _, _ => none := by
  rw [parseStrTail.eq_def]
  rfl

/-- Unfolding equation: the string parser at the closing quote. -/
theorem parseStrTail_dq (r : List Char) : parseStrTail (dquote :: r) = some ([], r) := by
  rw [parseStrTail.eq_def]
  rfl

/-- Unfolding equation: the string parser at a single-character escape. -/
theorem parseStrTail_esc (e : Char) (r2 : List Char) (hnu : e ≠ 'u') :
    parseStrTail (bslash :: e :: r2) =
      match escChar e with
      | some ec => (parseStrTail r2).map (fun p => (ec :: p.1, p.2))
      | none => none := by
  rw [parseStrTail.eq_def]
  simp only [if_neg hnu]
  rw [if_neg (show ¬ bslash = dquote from by decide), if_pos trivial]

/-- The consumed part of a string-literal parse: it ends at the closing
quote, re-parses in front of any suffix, and is scan-inert in string
mode. -/
theorem parseStrTail_consumed (l : List Char) : ∀ content r,
    parseStrTail l = some (content, r) →
    ∃ c, l = c ++ r ∧ c ≠ [] ∧ c.getLast? = some dquote ∧
      (∀ t, parseStrTail (c ++ t) = some (content, t)) ∧
      strScanOK c := by
  induction l using parseStrTail.induct with
  | case1 => intro content r h; cases h
  | case2 r2 =>
    intro content r h
    rw [parseStrTail_dq] at h
    injection h with h'
    injection h' with hc hr
    subst hc
    subst hr
    refine ⟨[dquote], rfl, by simp, rfl, ?_, ?_⟩
    · intro t
      exact parseStrTail_dq t
    · intro bc
      constructor
      · rw [runScan_cons, scanStep_dquote]
        rfl
      · rw [scanFind_cons, if_neg (by rw [isClosing_inStr]; simp), scanStep_dquote]
        rfl
  | case3 =>
    intro content r h
    exact Option.noConfusion
      (show (none : Option (List Char × List Char)) = some (content, r) from h)
  | case4 h1 h2 h3 h4 r3 a b c4 d e4 e3 e2 e1 hbd ih =>
    intro content r h
    rw [parseStrTail_u] at h
    simp only [e1, e2, e3, e4] at h
    cases hx : parseStrTail r3 with
    | none => rw [hx] at h; cases h
    | some p =>
      rw [hx] at h
      simp only [Option.map_some', Option.some.injEq, Prod.mk.injEq] at h
      obtain ⟨c', hdec, hne, hlast, hext, hscan⟩ := ih p.1 p.2 (by rw [hx])
      refine ⟨[bslash, 'u', h1, h2, h3, h4] ++ c', ?_, by simp, ?_, ?_, ?_⟩
      · rw [List.append_assoc, ← h.2, ← hdec]
        rfl
      · rw [List.getLast?_append, hlast]
        rfl
      · intro t
        have heq : parseStrTail (([bslash, 'u', h1, h2, h3, h4] ++ c') ++ t) =
            parseStrTail (bslash :: 'u' :: h1 :: h2 :: h3 :: h4 :: (c' ++ t)) := rfl
        rw [heq, parseStrTail_u]
        simp only [e1, e2, e3, e4, hext t]
        rw [← h.1]
        rfl
      · refine strScanOK_prefix _ _ ?_ hscan
        intro bc
        have hh1 := hexVal_ne h1 a e1
        have hh2 := hexVal_ne h2 b e2
        have hh3 := hexVal_ne h3 c4 e3
        have hh4 := hexVal_ne h4 d e4
        constructor
        · rw [runScan_cons, scanStep_bslash, runScan_cons, scanStep_esc,
            runScan_cons, scanStep_inStr bc h1 hh1.1 hh1.2,
            runScan_cons, scanStep_inStr bc h2 hh2.1 hh2.2,
            runScan_cons, scanStep_inStr bc h3 hh3.1 hh3.2,
            runScan_cons, scanStep_inStr bc h4 hh4.1 hh4.2]
          rfl
        · rw [scanFind_cons, if_neg (by rw [isClosing_inStr]; simp), scanStep_bslash,
            scanFind_cons, if_neg (by rw [isClosing_esc]; simp), scanStep_esc,
            scanFind_cons, if_neg (by rw [isClosing_inStr]; simp),
            scanStep_inStr bc h1 hh1.1 hh1.2,
            scanFind_cons, if_neg (by rw [isClosing_inStr]; simp),
            scanStep_inStr bc h2 hh2.1 hh2.2,
            scanFind_cons, if_neg (by rw [isClosing_inStr]; simp),
            scanStep_inStr bc h3 hh3.1 hh3.2,
            scanFind_cons, if_neg (by rw [isClosing_inStr]; simp),
            scanStep_inStr bc h4 hh4.1 hh4.2]
          rfl
  | case5 h1 h2 h3 h4 r3 hfail hbd =>
    intro content r h
    rw [parseStrTail_u] at h
    cases e1 : hexVal h1 with
    | none => rw [e1] at h; simp only [] at h; cases h
    | some a =>
      cases e2 : hexVal h2 with
      | none => rw [e1, e2] at h; simp only [] at h; cases h
      | some b =>
        cases e3 : hexVal h3 with
        | none => rw [e1, e2, e3] at h; simp only [] at h; cases h
        | some c4 =>
          cases e4 : hexVal h4 with
          | none => rw [e1, e2, e3, e4] at h; simp only [] at h; cases h
          | some d => exact (hfail a b c4 d e1 e2 e3 e4).elim
  | case6 r2 hshape hbd =>
    intro content r h
    rcases r2 with _ | ⟨x1, _ | ⟨x2, _ | ⟨x3, _ | ⟨x4, rest⟩⟩⟩⟩
    · exact Option.noConfusion
        (show (none : Option (List Char × List Char)) = some (content, r) from h)
    · exact Option.noConfusion
        (show (none : Option (List Char × List Char)) = some (content, r) from h)
    · exact Option.noConfusion
        (show (none : Option (List Char × List Char)) = some (content, r) from h)
    · exact Option.noConfusion
        (show (none : Option (List Char × List Char)) = some (content, r) from h)
    · exact (hshape x1 x2 x3 x4 rest rfl).elim
  | case7 e r2 hnu ec hec hbd ih =>
    intro content r h
    rw [parseStrTail_esc e r2 hnu] at h
    simp only [hec] at h
    cases hx : parseStrTail r2 with
    | none => rw [hx] at h; cases h
    | some p =>
      rw [hx] at h
      simp only [Option.map_some', Option.some.injEq, Prod.mk.injEq] at h
      obtain ⟨c', hdec, hne, hlast, hext, hscan⟩ := ih p.1 p.2 (by rw [hx])
      refine ⟨[bslash, e] ++ c', ?_, by simp, ?_, ?_, ?_⟩
      · rw [List.append_assoc, ← h.2, ← hdec]
        rfl
      · rw [List.getLast?_append, hlast]
        rfl
      · intro t
        have heq : parseStrTail (([bslash, e] ++ c') ++ t) =
            parseStrTail (bslash :: e :: (c' ++ t)) := rfl
        rw [heq, parseStrTail_esc e _ hnu]
        simp only [hec, hext t]
        rw [← h.1]
        rfl
      · refine strScanOK_prefix _ _ ?_ hscan
        intro bc
        constructor
        · rw [runScan_cons, scanStep_bslash, runScan_cons, scanStep_esc]
          rfl
        · rw [scanFind_cons, if_neg (by rw [isClosing_inStr]; simp), scanStep_bslash,
            scanFind_cons, if_neg (by rw [isClosing_esc]; simp), scanStep_esc]
          rfl
  | case8 e r2 hnu hec hbd =>
    intro content r h
    rw [parseStrTail_esc e r2 hnu] at h
    simp only [hec] at h
    cases h
  | case9 e r2 hnd hnb hlt =>
    intro content r h
    rw [parseStrTail_cons, if_neg hnd, if_neg hnb, if_pos hlt] at h
    cases h
  | case10 e r2 hnd hnb hge ih =>
    intro content r h
    rw [parseStrTail_cons, if_neg hnd, if_neg hnb, if_neg hge] at h
    cases hx : parseStrTail r2 with
    | none => rw [hx] at h; cases h
    | some p =>
      rw [hx] at h
      simp only [Option.map_some', Option.some.injEq, Prod.mk.injEq] at h
      obtain ⟨c', hdec, hne, hlast, hext, hscan⟩ := ih p.1 p.2 (by rw [hx])
      refine ⟨[e] ++ c', ?_, by simp, ?_, ?_, ?_⟩
      · rw [List.append_assoc, ← h.2, ← hdec]
        rfl
      · rw [List.getLast?_append, hlast]
        rfl
      · intro t
        have heq : parseStrTail (([e] ++ c') ++ t) =
            parseStrTail (e :: (c' ++ t)) := rfl
        rw [heq, parseStrTail_cons, if_neg hnd, if_neg hnb, if_neg hge, hext t]
        rw [← h.1]
        rfl
      · refine strScanOK_prefix _ _ ?_ hscan
        intro bc
        constructor
        · rw [runScan_cons, scanStep_inStr bc e hnb hnd]
          rfl
        · rw [scanFind_cons, if_neg (by rw [isClosing_inStr]; simp),
            scanStep_inStr bc e hnb hnd]
          rfl

/-! ## Number-lexeme consumption -/

theorem jws_char_cases (x : Char) (h : jws x = true) :
    x = ' ' ∨ x = '\t' ∨ x = '\n' ∨ x = '\r' := by
  revert h
  unfold jws
  by_cases h1 : x = ' ' <;> by_cases h2 : x = '\t' <;> by_cases h3 : x = '\n' <;>
    by_cases h4 : x = '\r' <;> simp [h1, h2, h3, h4]

theorem numChar_neutral (x : Char) (h : numChar x) : neutralChar x := by
  rcases h with h | h | h | h | h | h
  · subst h; exact ⟨by decide, by decide, by decide, by decide⟩
  · subst h; exact ⟨by decide, by decide, by decide, by decide⟩
  · subst h; exact ⟨by decide, by decide, by decide, by decide⟩
  · subst h; exact ⟨by decide, by decide, by decide, by decide⟩
  · subst h; exact ⟨by decide, by decide, by decide, by decide⟩
  · refine ⟨?_, ?_, ?_, ?_⟩ <;> (intro he; subst he; revert h; decide)

theorem numChar_not_ws (x : Char) (h : numChar x) : jws x = false := by
  by_cases hw : jws x = true
  · rcases jws_char_cases x hw with he | he | he | he <;>
      (exfalso; subst he;
       rcases h with h | h | h | h | h | h <;> revert h <;> decide)
  · exact Bool.not_eq_true _ ▸ (by revert hw; cases jws x <;> simp)

theorem takeWhile_digits_numChar (l : List Char) :
    ∀ x ∈ l.takeWhile Char.isDigit, numChar x := by
  intro x hx
  exact Or.inr (Or.inr (Or.inr (Or.inr (Or.inr (List.mem_takeWhile_imp hx)))))

theorem numSign_decomp (l : List Char) : (numSign l).1 ++ (numSign l).2 = l := by
  match l with
  | [] => rfl
  | s :: r2 =>
    simp only [numSign]
    by_cases hs : s = '+' ∨ s = '-'
    · rw [if_pos hs]
      rfl
    · rw [if_neg hs]
      rfl

theorem numSign_chars (l : List Char) : ∀ x ∈ (numSign l).1, numChar x := by
  match l with
  | [] => intro x hx; cases hx
  | s :: r2 =>
    simp only [numSign]
    by_cases hs : s = '+' ∨ s = '-'
    · rw [if_pos hs]
      intro x hx
      rcases hx with _ | ⟨_, hx⟩
      · rcases hs with hs | hs
        · subst hs; exact Or.inr (Or.inl rfl)
        · subst hs; exact Or.inl rfl
      · cases hx
    · rw [if_neg hs]
      intro x hx
      cases hx

theorem numExp_consumed (acc l : List Char) (lex : String) (r : List Char)
    (h : numExp acc l = some (lex, r)) :
    ∃ c, l = c ++ r ∧ (∀ x ∈ c, numChar x) := by
  match l with
  | [] =>
    injection h with h'
    injection h' with h1 h2
    exact ⟨[], h2, by intro x hx; cases hx⟩
  | e :: rl =>
    simp only [numExp] at h
    by_cases he : e = 'e' ∨ e = 'E'
    · rw [if_pos he] at h
      by_cases hds : (((numSign rl).2.takeWhile Char.isDigit).isEmpty : Bool) = true
      · rw [if_pos hds] at h
        cases h
      · rw [if_neg hds] at h
        injection h with h'
        injection h' with h1 h2
        refine ⟨e :: ((numSign rl).1 ++ (numSign rl).2.takeWhile Char.isDigit), ?_, ?_⟩
        · rw [← h2, List.cons_append, List.append_assoc,
            List.takeWhile_append_dropWhile, numSign_decomp]
        · intro x hx
          rcases hx with _ | ⟨_, hx⟩
          · rcases he with he | he
            · subst he; exact Or.inr (Or.inr (Or.inr (Or.inl rfl)))
            · subst he; exact Or.inr (Or.inr (Or.inr (Or.inr (Or.inl rfl))))
          · rcases List.mem_append.mp hx with hx | hx
            · exact numSign_chars rl x hx
            · exact takeWhile_digits_numChar _ x hx
    · rw [if_neg he] at h
      injection h with h'
      injection h' with h1 h2
      refine ⟨[], ?_, by intro x hx; cases hx⟩
      rw [h2]
      rfl

theorem numFrac_consumed (acc l : List Char) (lex : String) (r : List Char)
    (h : numFrac acc l = some (lex, r)) :
    ∃ c, l = c ++ r ∧ (∀ x ∈ c, numChar x) := by
  match l with
  | [] =>
    injection h with h'
    injection h' with h1 h2
    exact ⟨[], h2, by intro x hx; cases hx⟩
  | p :: rl =>
    simp only [numFrac] at h
    by_cases hp : p = '.'
    · rw [if_pos hp] at h
      by_cases hds : ((rl.takeWhile Char.isDigit).isEmpty : Bool) = true
      · rw [if_pos hds] at h
        cases h
      · rw [if_neg hds] at h
        obtain ⟨c2, hc2, hn2⟩ := numExp_consumed _ _ _ _ h
        refine ⟨p :: (rl.takeWhile Char.isDigit ++ c2), ?_, ?_⟩
        · rw [List.cons_append, List.append_assoc, ← hc2,
            List.takeWhile_append_dropWhile]
        · intro x hx
          rcases hx with _ | ⟨_, hx⟩
          · subst hp; exact Or.inr (Or.inr (Or.inl rfl))
          · rcases List.mem_append.mp hx with hx | hx
            · exact takeWhile_digits_numChar rl x hx
            · exact hn2 x hx
    · rw [if_neg hp] at h
      exact numExp_consumed _ _ _ _ h

theorem parseNumInt_consumed (acc l : List Char) (lex : String) (r : List Char)
    (h : parseNumInt acc l = some (lex, r)) :
    ∃ c, l = c ++ r ∧ c ≠ [] ∧ (∀ x ∈ c, numChar x) := by
  match l with
  | [] => cases h
  | c :: rl =>
    simp only [parseNumInt] at h
    by_cases hc0 : c = '0'
    · rw [if_pos hc0] at h
      obtain ⟨c2, hc2, hn2⟩ := numFrac_consumed _ _ _ _ h
      refine ⟨c :: c2, ?_, by simp, ?_⟩
      · rw [List.cons_append, ← hc2]
      · intro x hx
        rcases hx with _ | ⟨_, hx⟩
        · subst hc0
          exact Or.inr (Or.inr (Or.inr (Or.inr (Or.inr (by decide)))))
        · exact hn2 x hx
    · rw [if_neg hc0] at h
      by_cases hcd : c.isDigit = true
      · rw [if_pos hcd] at h
        obtain ⟨c2, hc2, hn2⟩ := numFrac_consumed _ _ _ _ h
        refine ⟨(c :: rl).takeWhile Char.isDigit ++ c2, ?_, ?_, ?_⟩
        · rw [List.append_assoc, ← hc2, List.takeWhile_append_dropWhile]
        · intro hnil
          have heq : (c :: rl).takeWhile Char.isDigit = c :: rl.takeWhile Char.isDigit := by
            rw [List.takeWhile_cons, if_pos hcd]
          rw [heq] at hnil
          cases hnil
        · intro x hx
          rcases List.mem_append.mp hx with hx | hx
          · exact takeWhile_digits_numChar (c :: rl) x hx
          · exact hn2 x hx
      · rw [if_neg hcd] at h
        cases h

theorem parseNumber_consumed (l : List Char) (lex : String) (r : List Char)
    (h : parseNumber l = some (lex, r)) :
    ∃ c, l = c ++ r ∧ c ≠ [] ∧ (∀ x ∈ c, numChar x) := by
  match l with
  | [] => cases h
  | c :: rl =>
    simp only [parseNumber] at h
    by_cases hm : c = '-'
    · rw [if_pos hm] at h
      obtain ⟨c2, hc2, hne2, hn2⟩ := parseNumInt_consumed _ _ _ _ h
      refine ⟨c :: c2, ?_, by simp, ?_⟩
      · rw [List.cons_append, ← hc2]
      · intro x hx
        rcases hx with _ | ⟨_, hx⟩
        · subst hm; exact Or.inl rfl
        · exact hn2 x hx
    · rw [if_neg hm] at h
      exact parseNumInt_consumed _ _ _ _ h

/-! ## Number-lexeme re-parsing in front of an admissible tail -/

theorem tailOK_nil : tailOK [] := by
  intro h hh
  cases hh

theorem takeWhile_all_append (p : Char → Bool) (d t : List Char)
    (hd : ∀ x ∈ d, p x = true) (ht : ∀ h, t.head? = some h → p h = false) :
    (d ++ t).takeWhile p = d ∧ (d ++ t).dropWhile p = t := by
  induction d with
  | nil =>
    cases t with
    | nil => exact ⟨rfl, rfl⟩
    | cons h0 t' =>
      constructor
      · show List.takeWhile p (h0 :: t') = []
        rw [List.takeWhile_cons, ht h0 rfl]
        rfl
      · show List.dropWhile p (h0 :: t') = h0 :: t'
        rw [List.dropWhile_cons, ht h0 rfl]
        rfl
  | cons x d' ih =>
    have hx := hd x (List.mem_cons_self x d')
    have hd' : ∀ y ∈ d', p y = true := fun y hy => hd y (List.mem_cons_of_mem x hy)
    obtain ⟨ht1, ht2⟩ := ih hd'
    constructor
    · rw [List.cons_append, List.takeWhile_cons, hx, ht1]
      rfl
    · rw [List.cons_append, List.dropWhile_cons, hx, ht2]
      rfl

theorem numSign_cases (l : List Char) :
    numSign l = ([], l) ∨
      ∃ s r2, l = s :: r2 ∧ (s = '+' ∨ s = '-') ∧ numSign l = ([s], r2) := by
  match l with
  | [] => exact Or.inl rfl
  | s :: r2 =>
    by_cases hs : s = '+' ∨ s = '-'
    · exact Or.inr ⟨s, r2, rfl, hs, by simp only [numSign]; rw [if_pos hs]⟩
    · exact Or.inl (by simp only [numSign]; rw [if_neg hs])

theorem numExp_stop (acc t : List Char) (ht : tailOK t) :
    numExp acc t = some (String.mk acc, t) := by
  cases t with
  | nil => rfl
  | cons h0 t' =>
    have hh := ht h0 rfl
    simp only [numExp]
    rw [if_neg (fun hor => by
      rcases hor with h | h
      · exact hh.2.2.1 h
      · exact hh.2.2.2 h)]

theorem numFrac_stop (acc t : List Char) (ht : tailOK t) :
    numFrac acc t = some (String.mk acc, t) := by
  cases t with
  | nil => rfl
  | cons h0 t' =>
    have hh := ht h0 rfl
    simp only [numFrac]
    rw [if_neg hh.2.1]
    exact numExp_stop acc (h0 :: t') ht

theorem numExp_reparse (acc : List Char) (e : Char) (he : e = 'e' ∨ e = 'E')
    (sgn tk t : List Char)
    (hsgn : sgn = [] ∨ ∃ s, (s = '+' ∨ s = '-') ∧ sgn = [s])
    (htk : ∀ x ∈ tk, Char.isDigit x = true) (htknil : tk ≠ [])
    (ht : tailOK t) :
    numExp acc ((e :: (sgn ++ tk)) ++ t) =
      some (String.mk (acc ++ [e] ++ sgn ++ tk), t) := by
  have hct : ∀ h0, t.head? = some h0 → Char.isDigit h0 = false :=
    fun h0 hh => (ht h0 hh).1
  obtain ⟨htw, hdw⟩ := takeWhile_all_append Char.isDigit tk t htk hct
  have hpair : numSign ((sgn ++ tk) ++ t) = (sgn, tk ++ t) := by
    rcases hsgn with hnil | ⟨s, hs, hseq⟩
    · subst hnil
      simp only [List.nil_append]
      cases tk with
      | nil => exact absurd rfl htknil
      | cons d0 tk' =>
        have hd0 : Char.isDigit d0 = true := htk d0 (List.mem_cons_self d0 tk')
        rw [List.cons_append]
        simp only [numSign]
        rw [if_neg (fun hor => by
          rcases hor with h | h <;> (subst h; exact absurd hd0 (by decide)))]
    · subst hseq
      have hsh : (([s] ++ tk) ++ t) = s :: (tk ++ t) := by simp
      rw [hsh]
      simp only [numSign]
      rw [if_pos hs]
  rw [List.cons_append]
  simp only [numExp]
  rw [if_pos he, hpair]
  dsimp only
  rw [htw, hdw]
  rw [if_neg (fun hemp => htknil (List.isEmpty_iff.mp hemp))]

theorem numExp_retail (acc l : List Char) (lex : String) (r : List Char)
    (h : numExp acc l = some (lex, r)) :
    ∃ c, l = c ++ r ∧ (∀ hd, c.head? = some hd → hd = 'e' ∨ hd = 'E') ∧
      (∀ t, tailOK t → numExp acc (c ++ t) = some (lex, t)) := by
  match l with
  | [] =>
    injection h with h'
    injection h' with h1 h2
    refine ⟨[], h2, ?_, ?_⟩
    · intro hd hh
      cases hh
    · intro t ht
      rw [List.nil_append, numExp_stop acc t ht, h1]
  | e :: rl =>
    simp only [numExp] at h
    by_cases he : e = 'e' ∨ e = 'E'
    · rw [if_pos he] at h
      by_cases hds : (((numSign rl).2.takeWhile Char.isDigit).isEmpty : Bool) = true
      · rw [if_pos hds] at h
        cases h
      · rw [if_neg hds] at h
        injection h with h'
        injection h' with h1 h2
        refine ⟨e :: ((numSign rl).1 ++ (numSign rl).2.takeWhile Char.isDigit), ?_, ?_, ?_⟩
        · rw [← h2, List.cons_append, List.append_assoc,
            List.takeWhile_append_dropWhile, numSign_decomp]
        · intro hd hh
          injection hh with hh'
          rw [← hh']
          exact he
        · intro t ht
          have hsgn : (numSign rl).1 = [] ∨
              ∃ s, (s = '+' ∨ s = '-') ∧ (numSign rl).1 = [s] := by
            rcases numSign_cases rl with hc | ⟨s, r2, hl, hs, hv⟩
            · exact Or.inl (by rw [hc])
            · exact Or.inr ⟨s, hs, by rw [hv]⟩
          have htk : ∀ x ∈ (numSign rl).2.takeWhile Char.isDigit, Char.isDigit x = true :=
            fun x hx => List.mem_takeWhile_imp hx
          have htknil : (numSign rl).2.takeWhile Char.isDigit ≠ [] := by
            intro h0
            rw [h0] at hds
            exact hds rfl
          rw [numExp_reparse acc e he _ _ t hsgn htk htknil ht, h1]
    · rw [if_neg he] at h
      injection h with h'
      injection h' with h1 h2
      refine ⟨[], h2, ?_, ?_⟩
      · intro hd hh
        cases hh
      · intro t ht
        rw [List.nil_append, numExp_stop acc t ht, h1]

theorem numFrac_retail (acc l : List Char) (lex : String) (r : List Char)
    (h : numFrac acc l = some (lex, r)) :
    ∃ c, l = c ++ r ∧ (∀ hd, c.head? = some hd → hd = '.' ∨ hd = 'e' ∨ hd = 'E') ∧
      (∀ t, tailOK t → numFrac acc (c ++ t) = some (lex, t)) := by
  match l with
  | [] =>
    injection h with h'
    injection h' with h1 h2
    refine ⟨[], h2, ?_, ?_⟩
    · intro hd hh
      cases hh
    · intro t ht
      rw [List.nil_append, numFrac_stop acc t ht, h1]
  | p :: rl =>
    simp only [numFrac] at h
    by_cases hp : p = '.'
    · rw [if_pos hp] at h
      by_cases hds : ((rl.takeWhile Char.isDigit).isEmpty : Bool) = true
      · rw [if_pos hds] at h
        cases h
      · rw [if_neg hds] at h
        obtain ⟨c2, hc2, hhd2, hrep2⟩ := numExp_retail _ _ _ _ h
        refine ⟨p :: (rl.takeWhile Char.isDigit ++ c2), ?_, ?_, ?_⟩
        · rw [List.cons_append, List.append_assoc, ← hc2, List.takeWhile_append_dropWhile]
        · intro hd hh
          injection hh with hh'
          rw [← hh']
          exact Or.inl hp
        · intro t ht
          rw [List.cons_append, List.append_assoc]
          simp only [numFrac]
          rw [if_pos hp]
          have htkall : ∀ x ∈ rl.takeWhile Char.isDigit, Char.isDigit x = true :=
            fun x hx => List.mem_takeWhile_imp hx
          have hhead : ∀ h0, (c2 ++ t).head? = some h0 → Char.isDigit h0 = false := by
            intro h0 hh
            cases c2 with
            | nil => exact (ht h0 hh).1
            | cons d c2' =>
              injection hh with hh'
              subst hh'
              rcases hhd2 d rfl with rfl | rfl | rfl <;> decide
          obtain ⟨htw, hdw⟩ := takeWhile_all_append Char.isDigit
            (rl.takeWhile Char.isDigit) (c2 ++ t) htkall hhead
          rw [htw, hdw]
          rw [if_neg (fun hemp => absurd hemp hds)]
          exact hrep2 t ht
    · rw [if_neg hp] at h
      obtain ⟨c2, hc2, hhd2, hrep2⟩ := numExp_retail _ _ _ _ h
      refine ⟨c2, hc2, ?_, ?_⟩
      · intro hd hh
        rcases hhd2 hd hh with he | he
        · exact Or.inr (Or.inl he)
        · exact Or.inr (Or.inr he)
      · intro t ht
        cases c2 with
        | nil =>
          have h0 := hrep2 [] tailOK_nil
          rw [List.append_nil] at h0
          have h1 : String.mk acc = lex := by
            have h0' : (some (String.mk acc, ([] : List Char)) :
                Option (String × List Char)) = some (lex, ([] : List Char)) := h0
            exact congrArg Prod.fst (Option.some.inj h0')
          rw [List.nil_append, numFrac_stop acc t ht, h1]
        | cons d c2' =>
          have hd' := hhd2 d rfl
          rw [List.cons_append]
          simp only [numFrac]
          rw [if_neg (fun hdc => by
            rcases hd' with he | he <;> (rw [hdc] at he; exact absurd he (by decide)))]
          rw [← List.cons_append]
          exact hrep2 t ht

theorem parseNumInt_retail (acc l : List Char) (lex : String) (r : List Char)
    (h : parseNumInt acc l = some (lex, r)) :
    ∃ c, l = c ++ r ∧ c ≠ [] ∧
      (∀ t, tailOK t → parseNumInt acc (c ++ t) = some (lex, t)) := by
  match l with
  | [] => cases h
  | c0 :: rl =>
    simp only [parseNumInt] at h
    by_cases hc0 : c0 = '0'
    · rw [if_pos hc0] at h
      obtain ⟨c2, hc2, hhd2, hrep2⟩ := numFrac_retail _ _ _ _ h
      refine ⟨c0 :: c2, by rw [List.cons_append, ← hc2], by simp, ?_⟩
      intro t ht
      rw [List.cons_append]
      simp only [parseNumInt]
      rw [if_pos hc0]
      exact hrep2 t ht
    · rw [if_neg hc0] at h
      by_cases hcd : c0.isDigit = true
      · rw [if_pos hcd] at h
        obtain ⟨c2, hc2, hhd2, hrep2⟩ := numFrac_retail _ _ _ _ h
        have heq : (c0 :: rl).takeWhile Char.isDigit = c0 :: rl.takeWhile Char.isDigit := by
          rw [List.takeWhile_cons, hcd]
          rfl
        refine ⟨(c0 :: rl).takeWhile Char.isDigit ++ c2, ?_, ?_, ?_⟩
        · rw [List.append_assoc, ← hc2, List.takeWhile_append_dropWhile]
        · rw [heq]
          simp
        · intro t ht
          have htkall : ∀ x ∈ rl.takeWhile Char.isDigit, Char.isDigit x = true :=
            fun x hx => List.mem_takeWhile_imp hx
          have hhead : ∀ h0, (c2 ++ t).head? = some h0 → Char.isDigit h0 = false := by
            intro h0 hh
            cases c2 with
            | nil => exact (ht h0 hh).1
            | cons d c2' =>
              injection hh with hh'
              subst hh'
              rcases hhd2 d rfl with rfl | rfl | rfl <;> decide
          obtain ⟨htw, hdw⟩ := takeWhile_all_append Char.isDigit
            (rl.takeWhile Char.isDigit) (c2 ++ t) htkall hhead
          rw [heq, List.cons_append, List.cons_append, List.append_assoc]
          simp only [parseNumInt]
          rw [if_neg hc0, if_pos hcd]
          have hT : (c0 :: (rl.takeWhile Char.isDigit ++ (c2 ++ t))).takeWhile Char.isDigit
              = c0 :: rl.takeWhile Char.isDigit := by
            rw [List.takeWhile_cons, hcd, htw]
            rfl
          have hD : (c0 :: (rl.takeWhile Char.isDigit ++ (c2 ++ t))).dropWhile Char.isDigit
              = c2 ++ t := by
            rw [List.dropWhile_cons, hcd, hdw]
            rfl
          rw [hT, hD, ← heq]
          exact hrep2 t ht
      · rw [if_neg hcd] at h
        cases h

theorem parseNumber_retail (l : List Char) (lex : String) (r : List Char)
    (h : parseNumber l = some (lex, r)) :
    ∃ c, l = c ++ r ∧ c ≠ [] ∧
      (∀ t, tailOK t → parseNumber (c ++ t) = some (lex, t)) := by
  match l with
  | [] => cases h
  | c0 :: rl =>
    simp only [parseNumber] at h
    by_cases hm : c0 = '-'
    · rw [if_pos hm] at h
      obtain ⟨cI, hcI, hne, hrep⟩ := parseNumInt_retail _ _ _ _ h
      refine ⟨c0 :: cI, by rw [List.cons_append, ← hcI], by simp, ?_⟩
      intro t ht
      rw [List.cons_append]
      simp only [parseNumber]
      rw [if_pos hm]
      exact hrep t ht
    · rw [if_neg hm] at h
      obtain ⟨cI, hcI, hne, hrep⟩ := parseNumInt_retail _ _ _ _ h
      refine ⟨cI, hcI, hne, ?_⟩
      intro t ht
      cases cI with
      | nil => exact absurd rfl hne
      | cons d cI' =>
        have hd : d = c0 := by
          rw [List.cons_append] at hcI
          injection hcI with h1 h2
          exact h1.symm
        rw [List.cons_append]
        simp only [parseNumber]
        rw [if_neg (fun hdc => by rw [hd] at hdc; exact hm hdc)]
        rw [← List.cons_append]
        exact hrep t ht

/-! ## Parser unfolding equations and scanner character steps -/

set_option maxHeartbeats 2000000 in
theorem parseValueF_succ (f : Nat) (c : Char) (r : List Char) :
    parseValueF (f + 1) (c :: r) =
      (if c = obrace then
        match skipWs r with
        | [] => none
        | c1 :: r2 =>
          if c1 = cbrace then some (Json.obj [], r2)
          else (parseMembersF f (c1 :: r2)).map (fun p => (Json.obj p.1, p.2))
      else if c = '[' then
        match skipWs r with
        | [] => none
        | c1 :: r2 =>
          if c1 = ']' then some (Json.arr [], r2)
          else (parseElemsF f (c1 :: r2)).map (fun p => (Json.arr p.1, p.2))
      else if c = dquote then
        (parseStrTail r).map (fun p => (Json.str (String.mk p.1), p.2))
      else if c = 't' then
        match r with
        | 'r' :: 'u' :: 'e' :: r3 => some (Json.bool true, r3)
        | _ => none
      else if c = 'f' then
        match r with
        | 'a' :: 'l' :: 's' :: 'e' :: r3 => some (Json.bool false, r3)
        | _ => none
      else if c = 'n' then
        match r with
        | 'u' :: 'l' :: 'l' :: r3 => some (Json.null, r3)
        | _ => none
      else if c = '-' ∨ c.isDigit then
        (parseNumber (c :: r)).map (fun p => (Json.num p.1, p.2))
      else none) := rfl

set_option maxHeartbeats 2000000 in
theorem parseValueF_nil (f : Nat) : parseValueF f [] = none := by
  cases f with
  | zero => rfl
  | succ f' => rfl

set_option maxHeartbeats 2000000 in
theorem parseMembersF_succ (f : Nat) (c : Char) (r : List Char) :
    parseMembersF (f + 1) (c :: r) =
      (if c = dquote then
        match parseStrTail r with
        | none => none
        | some (kcs, r1) =>
          match skipWs r1 with
          | [] => none
          | c2 :: r3 =>
            if c2 = ':' then
              match parseValueF f (skipWs r3) with
              | none => none
              | some (v, r4) =>
                match skipWs r4 with
                | [] => none
                | c5 :: r6 =>
                  if c5 = ',' then
                    (parseMembersF f (skipWs r6)).map
                      (fun p => ((String.mk kcs, v) :: p.1, p.2))
                  else if c5 = cbrace then some ([(String.mk kcs, v)], r6)
                  else none
            else none
      else none) := rfl

set_option maxHeartbeats 2000000 in
theorem parseElemsF_succ (f : Nat) (l : List Char) :
    parseElemsF (f + 1) l =
      (match parseValueF f l with
      | none => none
      | some (v, r1) =>
        match skipWs r1 with
        | [] => none
        | c :: r2 =>
          if c = ',' then (parseElemsF f (skipWs r2)).map (fun p => (v :: p.1, p.2))
          else if c = ']' then some ([v], r2)
          else none) := rfl

theorem scanStep_obrace (bc : Int) :
    scanStep bc false false obrace = (bc + 1, false, false) := by
  unfold scanStep
  rw [if_neg (show ¬ (false = true) by simp), if_neg (by decide), if_neg (by decide),
    if_neg (show ¬ (false = true) by simp), if_pos rfl]

theorem scanStep_cbrace (bc : Int) :
    scanStep bc false false cbrace = (bc - 1, false, false) := by
  unfold scanStep
  rw [if_neg (show ¬ (false = true) by simp), if_neg (by decide), if_neg (by decide),
    if_neg (show ¬ (false = true) by simp), if_neg (by decide), if_pos rfl]

theorem isClosing_cbrace (bc : Int) :
    isClosing bc false false cbrace = decide (bc - 1 = 0) := by
  unfold isClosing
  rw [if_neg (show ¬ (false = true) by simp), if_neg (show ¬ (false = true) by simp),
    if_pos rfl]

/-! ## Composition helpers for the parser induction -/

theorem parseValueF_zero (l : List Char) : parseValueF 0 l = none := rfl

theorem parseMembersF_zero (l : List Char) : parseMembersF 0 l = none := rfl

theorem parseElemsF_zero (l : List Char) : parseElemsF 0 l = none := rfl

theorem parseMembersF_nil (f : Nat) : parseMembersF f [] = none := by
  cases f with
  | zero => rfl
  | succ f' => rfl

theorem dropWhile_head_false {p : Char → Bool} (l : List Char) (c1 : Char) (rr : List Char)
    (h : List.dropWhile p l = c1 :: rr) : p c1 = false := by
  induction l with
  | nil => cases h
  | cons x l' ih =>
    rw [List.dropWhile_cons] at h
    by_cases hx : p x = true
    · rw [if_pos hx] at h
      exact ih h
    · rw [if_neg hx] at h
      injection h with h1 h2
      rw [← h1]
      cases hb : p x with
      | false => rfl
      | true => exact absurd hb hx

theorem getLast?_append_some (xs ys : List Char) (b : Char) (h : ys.getLast? = some b) :
    (xs ++ ys).getLast? = some b := by
  rw [List.getLast?_append, h]
  rfl

theorem getLast?_cons_some (a : Char) (ys : List Char) (b : Char) (h : ys.getLast? = some b) :
    (a :: ys).getLast? = some b := by
  rw [show a :: ys = [a] ++ ys from rfl]
  exact getLast?_append_some [a] ys b h

theorem valScanOK_append (a b : List Char) (ha : valScanOK a) (hb : valScanOK b) :
    valScanOK (a ++ b) := by
  intro bc hbc
  obtain ⟨ra1, ra2⟩ := ha bc hbc
  obtain ⟨rb1, rb2⟩ := hb bc hbc
  constructor
  · rw [runScan_append, ra1]
    exact rb1
  · rw [scanFind_append_none a b bc false false ra2, ra1, rb2]
    rfl

theorem valScanOK_of_neutral (xs : List Char) (hn : ∀ x ∈ xs, neutralChar x) :
    valScanOK xs := by
  intro bc hbc
  exact ⟨(scan_neutral_list xs hn bc false).1, (scan_neutral_list xs hn bc false).2⟩

theorem valScanOK_ws (w : List Char) (hw : ∀ x ∈ w, jws x = true) : valScanOK w :=
  valScanOK_of_neutral w (fun x hx => jws_neutral x (hw x hx))

theorem valScanOK_str_chunk (sc : List Char) (hs : strScanOK sc) :
    valScanOK (dquote :: sc) := by
  intro bc hbc
  constructor
  · rw [runScan_cons, scanStep_dquote]
    exact (hs bc).1
  · rw [scanFind_cons,
      if_neg (by rw [isClosing_not_cbrace bc false false dquote (by decide)]; simp),
      scanStep_dquote]
    dsimp only
    rw [Bool.not_false, (hs bc).2]
    rfl

theorem memScanOK_concat (A : List Char) (hA : valScanOK A) :
    memScanOK (A ++ [cbrace]) := by
  intro bc
  refine ⟨?_, ?_, ?_⟩
  · intro hbc
    obtain ⟨r1, r2⟩ := hA bc hbc
    rw [runScan_append, r1]
    rw [runScan_cons, scanStep_cbrace]
    rfl
  · intro hbc
    obtain ⟨r1, r2⟩ := hA bc (by omega)
    rw [scanFind_append_none A [cbrace] bc false false r2, r1]
    rw [scanFind_cons, isClosing_cbrace]
    rw [if_neg (by intro hd; simp at hd; omega)]
    rfl
  · intro hbc
    subst hbc
    obtain ⟨r1, r2⟩ := hA 1 (by omega)
    rw [scanFind_append_none A [cbrace] 1 false false r2, r1]
    rw [scanFind_cons, isClosing_cbrace]
    rw [if_pos (by decide)]
    simp [List.length_append]

theorem memScanOK_compose (A B : List Char) (hA : valScanOK A) (hB : memScanOK B) :
    memScanOK (A ++ B) := by
  have hBne : B ≠ [] := by
    intro h0
    have hb := (hB 1).2.2 rfl
    rw [h0] at hb
    cases hb
  intro bc
  refine ⟨?_, ?_, ?_⟩
  · intro hbc
    obtain ⟨r1, r2⟩ := hA bc hbc
    rw [runScan_append, r1]
    exact (hB bc).1 hbc
  · intro hbc
    obtain ⟨r1, r2⟩ := hA bc (by omega)
    rw [scanFind_append_none A B bc false false r2, r1, (hB bc).2.1 hbc]
    rfl
  · intro hbc
    subst hbc
    obtain ⟨r1, r2⟩ := hA 1 (by omega)
    rw [scanFind_append_none A B 1 false false r2, r1, (hB 1).2.2 rfl]
    simp [List.length_append]
    have hlp := List.length_pos.mpr hBne
    omega

theorem tailOK_ws_cons (w : List Char) (d : Char) (t : List Char)
    (hw : ∀ x ∈ w, jws x = true)
    (hd : d.isDigit = false ∧ d ≠ '.' ∧ d ≠ 'e' ∧ d ≠ 'E') :
    tailOK (w ++ d :: t) := by
  intro h hh
  cases w with
  | nil =>
    injection hh with hh'
    subst hh'
    exact hd
  | cons x w' =>
    injection hh with hh'
    subst hh'
    have hx := hw x (List.mem_cons_self x w')
    rcases jws_char_cases x hx with rfl | rfl | rfl | rfl <;>
      exact ⟨by decide, by decide, by decide, by decide⟩

theorem skipWs_split_head (X m rest : List Char) (hm : m ≠ [])
    (h : skipWs X = m ++ rest) : ∃ c1 m', m = c1 :: m' ∧ jws c1 = false := by
  cases m with
  | nil => exact absurd rfl hm
  | cons c1 m' =>
    rw [List.cons_append] at h
    exact ⟨c1, m', rfl, dropWhile_head_false X c1 (m' ++ rest) h⟩

theorem skipWs_pass (w m t : List Char) (hw : ∀ x ∈ w, jws x = true)
    (c1 : Char) (m' : List Char) (hm : m = c1 :: m') (hc1 : jws c1 = false) :
    skipWs (w ++ (m ++ t)) = m ++ t := by
  apply skipWs_append_nonws w (m ++ t) hw
  intro hh hhh
  rw [hm, List.cons_append] at hhh
  injection hhh with hh'
  rw [← hh']
  exact hc1

theorem scanFind_obj_chunk (Z : List Char) (hZ : memScanOK Z) (w : List Char)
    (hw : ∀ x ∈ w, jws x = true) :
    scanFind 0 false false (obrace :: (w ++ Z)) =
      some ((obrace :: (w ++ Z)).length - 1) := by
  have hZne : Z ≠ [] := by
    intro h0
    have hb := (hZ 1).2.2 rfl
    rw [h0] at hb
    cases hb
  rw [scanFind_cons,
    if_neg (by rw [isClosing_not_cbrace 0 false false obrace (by decide)]; simp),
    scanStep_obrace]
  dsimp only
  rw [show (0 : Int) + 1 = 1 from by decide]
  have hwsc := scan_neutral_list w (fun x hx => jws_neutral x (hw x hx)) 1 false
  rw [scanFind_append_none w Z 1 false false hwsc.2, hwsc.1]
  dsimp only
  rw [(hZ 1).2.2 rfl]
  simp [List.length_append]
  have hlp := List.length_pos.mpr hZne
  omega

theorem valScanOK_obj_chunk (Z : List Char) (hZ : memScanOK Z) (w : List Char)
    (hw : ∀ x ∈ w, jws x = true) : valScanOK (obrace :: (w ++ Z)) := by
  intro bc hbc
  have hwsc := scan_neutral_list w (fun x hx => jws_neutral x (hw x hx)) (bc + 1) false
  constructor
  · rw [runScan_cons, scanStep_obrace]
    dsimp only
    rw [runScan_append, hwsc.1]
    dsimp only
    rw [(hZ (bc + 1)).1 (by omega), show bc + 1 - 1 = bc from by omega]
  · rw [scanFind_cons,
      if_neg (by rw [isClosing_not_cbrace bc false false obrace (by decide)]; simp),
      scanStep_obrace]
    dsimp only
    rw [scanFind_append_none w Z (bc + 1) false false hwsc.2, hwsc.1]
    dsimp only
    rw [(hZ (bc + 1)).2.1 (by omega)]
    rfl

theorem valScanOK_arr_chunk (Z w : List Char) (hZ : valScanOK Z)
    (hw : ∀ x ∈ w, jws x = true) : valScanOK ('[' :: (w ++ Z)) := by
  have h1 : valScanOK ['['] := valScanOK_of_neutral ['['] (by
    intro x hx
    simp at hx
    subst hx
    exact ⟨by decide, by decide, by decide, by decide⟩)
  exact valScanOK_append ['['] (w ++ Z) h1
    (valScanOK_append w Z (valScanOK_ws w hw) hZ)

/-- Induction step for the value parser: every successful parse at
successor fuel yields a consumed chunk with the scan and re-parse
properties. -/
theorem stepV (f : Nat) (ihM : MStmt f) (ihE : EStmt f) : VStmt (f + 1) := by
  intro l v r h
  cases l with
  | nil =>
    rw [parseValueF_nil] at h
    cases h
  | cons c r0 =>
    rw [parseValueF_succ] at h
    by_cases hob : c = obrace
    · rw [if_pos hob] at h
      subst hob
      cases hsw : skipWs r0 with
      | nil =>
        rw [hsw] at h
        cases h
      | cons c1 r2 =>
        simp only [hsw] at h
        by_cases hcb : c1 = cbrace
        · rw [if_pos hcb] at h
          subst hcb
          injection h with h'
          injection h' with h1 h2
          rw [← h1, ← h2]
          have hw0 : ∀ x ∈ r0.takeWhile jws, jws x = true :=
            fun x hx => List.mem_takeWhile_imp hx
          have hr0 := skipWs_decomp r0
          rw [hsw] at hr0
          have hmem1 : memScanOK [cbrace] :=
            memScanOK_concat [] (valScanOK_of_neutral [] (by intro x hx; cases hx))
          refine ⟨obrace :: (r0.takeWhile jws ++ [cbrace]), ?_, by simp, ?_, ?_, ?_, ?_⟩
          · conv_lhs => rw [hr0]
            simp
          · intro hch hc
            rw [getLast?_cons_some obrace _ cbrace
              (getLast?_append_some _ [cbrace] cbrace rfl)] at hc
            injection hc with hc'
            rw [← hc']
            decide
          · exact valScanOK_obj_chunk [cbrace] hmem1 _ hw0
          · intro fs hfs
            exact ⟨scanFind_obj_chunk [cbrace] hmem1 _ hw0, rfl,
              getLast?_cons_some obrace _ cbrace
                (getLast?_append_some _ [cbrace] cbrace rfl)⟩
          · intro g t hg ht
            cases g with
            | zero => exact absurd hg (by omega)
            | succ g' =>
              rw [List.cons_append, parseValueF_succ, if_pos rfl]
              have hsw2 : skipWs ((r0.takeWhile jws ++ [cbrace]) ++ t) = cbrace :: t := by
                rw [List.append_assoc]
                exact skipWs_pass _ [cbrace] t hw0 cbrace [] rfl (by decide)
              simp only [hsw2]
              simp
        · rw [if_neg hcb] at h
          cases hm : parseMembersF f (c1 :: r2) with
          | none =>
            rw [hm] at h
            cases h
          | some q =>
            rw [hm, Option.map_some'] at h
            injection h with h'
            injection h' with h1 h2
            rw [← h1, ← h2]
            obtain ⟨m, hmdec, hmne, hmlast, hmscan, hmrep⟩ := ihM (c1 :: r2) q.1 q.2 hm
            have hw0 : ∀ x ∈ r0.takeWhile jws, jws x = true :=
              fun x hx => List.mem_takeWhile_imp hx
            have hr0 := skipWs_decomp r0
            rw [hsw] at hr0
            obtain ⟨mc1, m', hmm, hc1ws⟩ :=
              skipWs_split_head r0 m q.2 hmne (by rw [hsw]; exact hmdec)
            refine ⟨obrace :: (r0.takeWhile jws ++ m), ?_, by simp, ?_, ?_, ?_, ?_⟩
            · conv_lhs => rw [hr0, hmdec]
              simp
            · intro hch hc
              rw [getLast?_cons_some obrace _ cbrace
                (getLast?_append_some _ m cbrace hmlast)] at hc
              injection hc with hc'
              rw [← hc']
              decide
            · exact valScanOK_obj_chunk m hmscan _ hw0
            · intro fs hfs
              exact ⟨scanFind_obj_chunk m hmscan _ hw0, rfl,
                getLast?_cons_some obrace _ cbrace
                  (getLast?_append_some _ m cbrace hmlast)⟩
            · intro g t hg ht
              cases g with
              | zero => exact absurd hg (by omega)
              | succ g' =>
                rw [List.cons_append, parseValueF_succ, if_pos rfl]
                have hsw2 : skipWs ((r0.takeWhile jws ++ m) ++ t) = m ++ t := by
                  rw [List.append_assoc]
                  exact skipWs_pass _ m t hw0 mc1 m' hmm hc1ws
                simp only [hsw2]
                have he1 : mc1 = c1 := by
                  rw [hmm, List.cons_append] at hmdec
                  injection hmdec with ha hb
                  exact ha.symm
                simp only [hmm, he1, List.cons_append]
                rw [if_neg hcb]
                rw [← List.cons_append, ← he1, ← hmm,
                  hmrep g' t (by simp [List.length_append] at hg; omega) ht,
                  Option.map_some']
    · rw [if_neg hob] at h
      by_cases hbr : c = '['
      · rw [if_pos hbr] at h
        subst hbr
        cases hsw : skipWs r0 with
        | nil =>
          rw [hsw] at h
          cases h
        | cons c1 r2 =>
          simp only [hsw] at h
          by_cases hbk : c1 = ']'
          · rw [if_pos hbk] at h
            subst hbk
            injection h with h'
            injection h' with h1 h2
            rw [← h1, ← h2]
            have hw0 : ∀ x ∈ r0.takeWhile jws, jws x = true :=
              fun x hx => List.mem_takeWhile_imp hx
            have hr0 := skipWs_decomp r0
            rw [hsw] at hr0
            refine ⟨'[' :: (r0.takeWhile jws ++ [']']), ?_, by simp, ?_, ?_, ?_, ?_⟩
            · conv_lhs => rw [hr0]
              simp
            · intro hch hc
              rw [getLast?_cons_some '[' _ ']' (getLast?_append_some _ [']'] ']' rfl)] at hc
              injection hc with hc'
              rw [← hc']
              decide
            · apply valScanOK_of_neutral
              intro x hx
              rcases List.mem_cons.mp hx with rfl | hx2
              · exact ⟨by decide, by decide, by decide, by decide⟩
              · rcases List.mem_append.mp hx2 with hx3 | hx3
                · exact jws_neutral x (hw0 x hx3)
                · simp at hx3
                  subst hx3
                  exact ⟨by decide, by decide, by decide, by decide⟩
            · intro fs hfs
              exact Json.noConfusion hfs
            · intro g t hg ht
              cases g with
              | zero => exact absurd hg (by omega)
              | succ g' =>
                rw [List.cons_append, parseValueF_succ]
                rw [if_neg (by decide), if_pos rfl]
                have hsw2 : skipWs ((r0.takeWhile jws ++ [']']) ++ t) = ']' :: t := by
                  rw [List.append_assoc]
                  exact skipWs_pass _ [']'] t hw0 ']' [] rfl (by decide)
                simp only [hsw2]
                simp
          · rw [if_neg hbk] at h
            cases he : parseElemsF f (c1 :: r2) with
            | none =>
              rw [he] at h
              cases h
            | some q =>
              rw [he, Option.map_some'] at h
              injection h with h'
              injection h' with h1 h2
              rw [← h1, ← h2]
              obtain ⟨ce, hedec, hene, helast, hescan, herep⟩ := ihE (c1 :: r2) q.1 q.2 he
              have hw0 : ∀ x ∈ r0.takeWhile jws, jws x = true :=
                fun x hx => List.mem_takeWhile_imp hx
              have hr0 := skipWs_decomp r0
              rw [hsw] at hr0
              obtain ⟨mc1, m', hmm, hc1ws⟩ :=
                skipWs_split_head r0 ce q.2 hene (by rw [hsw]; exact hedec)
              refine ⟨'[' :: (r0.takeWhile jws ++ ce), ?_, by simp, ?_, ?_, ?_, ?_⟩
              · conv_lhs => rw [hr0, hedec]
                simp
              · intro hch hc
                rw [getLast?_cons_some '[' _ ']' (getLast?_append_some _ ce ']' helast)] at hc
                injection hc with hc'
                rw [← hc']
                decide
              · exact valScanOK_arr_chunk ce _ hescan hw0
              · intro fs hfs
                exact Json.noConfusion hfs
              · intro g t hg ht
                cases g with
                | zero => exact absurd hg (by omega)
                | succ g' =>
                  rw [List.cons_append, parseValueF_succ]
                  rw [if_neg (by decide), if_pos rfl]
                  have hsw2 : skipWs ((r0.takeWhile jws ++ ce) ++ t) = ce ++ t := by
                    rw [List.append_assoc]
                    exact skipWs_pass _ ce t hw0 mc1 m' hmm hc1ws
                  simp only [hsw2]
                  have he1 : mc1 = c1 := by
                    rw [hmm, List.cons_append] at hedec
                    injection hedec with ha hb
                    exact ha.symm
                  simp only [hmm, he1, List.cons_append]
                  rw [if_neg hbk]
                  rw [← List.cons_append, ← he1, ← hmm,
                    herep g' t (by simp [List.length_append] at hg; omega) ht,
                    Option.map_some']
      · rw [if_neg hbr] at h
        by_cases hdq : c = dquote
        · rw [if_pos hdq] at h
          subst hdq
          cases hst : parseStrTail r0 with
          | none =>
            rw [hst] at h
            cases h
          | some p =>
            rw [hst, Option.map_some'] at h
            injection h with h'
            injection h' with h1 h2
            rw [← h1, ← h2]
            obtain ⟨sc, hscdec, hscne, hsclast, hscrep, hscscan⟩ :=
              parseStrTail_consumed r0 p.1 p.2 hst
            refine ⟨dquote :: sc, ?_, by simp, ?_, ?_, ?_, ?_⟩
            · rw [hscdec, List.cons_append]
            · intro hch hc
              rw [getLast?_cons_some dquote sc dquote hsclast] at hc
              injection hc with hc'
              rw [← hc']
              decide
            · exact valScanOK_str_chunk sc hscscan
            · intro fs hfs
              exact Json.noConfusion hfs
            · intro g t hg ht
              cases g with
              | zero => exact absurd hg (by omega)
              | succ g' =>
                rw [List.cons_append, parseValueF_succ]
                rw [if_neg (by decide), if_neg (by decide), if_pos rfl]
                rw [hscrep t, Option.map_some']
        · rw [if_neg hdq] at h
          by_cases htr : c = 't'
          · rw [if_pos htr] at h
            subst htr
            split at h
            next r3 =>
              injection h with h'
              injection h' with h1 h2
              rw [← h1, ← h2]
              refine ⟨['t', 'r', 'u', 'e'], rfl, by simp, ?_, ?_, ?_, ?_⟩
              · intro hch hc
                rw [show (['t', 'r', 'u', 'e'] : List Char).getLast? = some 'e' from rfl] at hc
                injection hc with hc'
                rw [← hc']
                decide
              · apply valScanOK_of_neutral
                intro x hx
                simp at hx
                rcases hx with rfl | rfl | rfl | rfl <;>
                  exact ⟨by decide, by decide, by decide, by decide⟩
              · intro fs hfs
                exact Json.noConfusion hfs
              · intro g t hg ht
                cases g with
                | zero => exact absurd hg (by omega)
                | succ g' =>
                  rw [show (['t', 'r', 'u', 'e'] : List Char) ++ t =
                    't' :: 'r' :: 'u' :: 'e' :: t from rfl, parseValueF_succ]
                  rw [if_neg (by decide), if_neg (by decide), if_neg (by decide), if_pos rfl]
                  rfl
            next =>
              cases h
          · rw [if_neg htr] at h
            by_cases hfa : c = 'f'
            · rw [if_pos hfa] at h
              subst hfa
              split at h
              next r3 =>
                injection h with h'
                injection h' with h1 h2
                rw [← h1, ← h2]
                refine ⟨['f', 'a', 'l', 's', 'e'], rfl, by simp, ?_, ?_, ?_, ?_⟩
                · intro hch hc
                  rw [show (['f', 'a', 'l', 's', 'e'] : List Char).getLast? =
                    some 'e' from rfl] at hc
                  injection hc with hc'
                  rw [← hc']
                  decide
                · apply valScanOK_of_neutral
                  intro x hx
                  simp at hx
                  rcases hx with rfl | rfl | rfl | rfl | rfl <;>
                    exact ⟨by decide, by decide, by decide, by decide⟩
                · intro fs hfs
                  exact Json.noConfusion hfs
                · intro g t hg ht
                  cases g with
                  | zero => exact absurd hg (by omega)
                  | succ g' =>
                    rw [show (['f', 'a', 'l', 's', 'e'] : List Char) ++ t =
                      'f' :: 'a' :: 'l' :: 's' :: 'e' :: t from rfl, parseValueF_succ]
                    rw [if_neg (by decide), if_neg (by decide), if_neg (by decide),
                      if_neg (by decide), if_pos rfl]
                    rfl
              next =>
                cases h
            · rw [if_neg hfa] at h
              by_cases hnu : c = 'n'
              · rw [if_pos hnu] at h
                subst hnu
                split at h
                next r3 =>
                  injection h with h'
                  injection h' with h1 h2
                  rw [← h1, ← h2]
                  refine ⟨['n', 'u', 'l', 'l'], rfl, by simp, ?_, ?_, ?_, ?_⟩
                  · intro hch hc
                    rw [show (['n', 'u', 'l', 'l'] : List Char).getLast? =
                      some 'l' from rfl] at hc
                    injection hc with hc'
                    rw [← hc']
                    decide
                  · apply valScanOK_of_neutral
                    intro x hx
                    simp at hx
                    rcases hx with rfl | rfl | rfl <;>
                      exact ⟨by decide, by decide, by decide, by decide⟩
                  · intro fs hfs
                    exact Json.noConfusion hfs
                  · intro g t hg ht
                    cases g with
                    | zero => exact absurd hg (by omega)
                    | succ g' =>
                      rw [show (['n', 'u', 'l', 'l'] : List Char) ++ t =
                        'n' :: 'u' :: 'l' :: 'l' :: t from rfl, parseValueF_succ]
                      rw [if_neg (by decide), if_neg (by decide), if_neg (by decide),
                        if_neg (by decide), if_neg (by decide), if_pos rfl]
                      rfl
                next =>
                  cases h
              · rw [if_neg hnu] at h
                by_cases hnum : c = '-' ∨ c.isDigit = true
                · rw [if_pos hnum] at h
                  cases hpn : parseNumber (c :: r0) with
                  | none =>
                    rw [hpn] at h
                    cases h
                  | some p =>
                    rw [hpn, Option.map_some'] at h
                    injection h with h'
                    injection h' with h1 h2
                    rw [← h1, ← h2]
                    obtain ⟨cn, hcn, hcnne, hcnchar⟩ :=
                      parseNumber_consumed (c :: r0) p.1 p.2 hpn
                    obtain ⟨cn2, hcn2, hcn2ne, hcn2rep⟩ :=
                      parseNumber_retail (c :: r0) p.1 p.2 hpn
                    have hceq : cn = cn2 := List.append_cancel_right (hcn.symm.trans hcn2)
                    rw [← hceq] at hcn2rep
                    refine ⟨cn, hcn, hcnne, ?_, ?_, ?_, ?_⟩
                    · intro hch hc
                      exact numChar_not_ws hch (hcnchar hch (List.mem_of_mem_getLast? hc))
                    · exact valScanOK_of_neutral cn
                        (fun x hx => numChar_neutral x (hcnchar x hx))
                    · intro fs hfs
                      exact Json.noConfusion hfs
                    · intro g t hg ht
                      cases g with
                      | zero => exact absurd hg (by omega)
                      | succ g' =>
                        obtain ⟨cc, cn', hcc⟩ : ∃ cc cn', cn = cc :: cn' := by
                          cases cn with
                          | nil => exact absurd rfl hcnne
                          | cons a b => exact ⟨a, b, rfl⟩
                        have hcc1 : cc = c := by
                          rw [hcc, List.cons_append] at hcn
                          injection hcn with he1 he2
                          exact he1.symm
                        rw [hcc, hcc1, List.cons_append, parseValueF_succ]
                        rw [if_neg hob, if_neg hbr, if_neg hdq, if_neg htr,
                          if_neg hfa, if_neg hnu, if_pos hnum]
                        rw [← List.cons_append, ← hcc1, ← hcc,
                          hcn2rep t ht, Option.map_some']
                · rw [if_neg hnum] at h
                  cases h

/-- Induction step for the members parser. -/
theorem stepM (f : Nat) (ihV : VStmt f) (ihM : MStmt f) : MStmt (f + 1) := by
  intro l ms r h
  cases l with
  | nil =>
    rw [parseMembersF_nil] at h
    cases h
  | cons c r0 =>
    rw [parseMembersF_succ] at h
    by_cases hdq : c = dquote
    · rw [if_pos hdq] at h
      subst hdq
      cases hst : parseStrTail r0 with
      | none =>
        rw [hst] at h
        cases h
      | some p =>
        obtain ⟨kcs, r1⟩ := p
        simp only [hst] at h
        cases hsw1 : skipWs r1 with
        | nil =>
          rw [hsw1] at h
          cases h
        | cons c2 r3 =>
          simp only [hsw1] at h
          by_cases hcol : c2 = ':'
          · rw [if_pos hcol] at h
            subst hcol
            cases hpv : parseValueF f (skipWs r3) with
            | none =>
              rw [hpv] at h
              cases h
            | some pv =>
              obtain ⟨v, r4⟩ := pv
              simp only [hpv] at h
              cases hsw4 : skipWs r4 with
              | nil =>
                rw [hsw4] at h
                cases h
              | cons c5 r6 =>
                simp only [hsw4] at h
                obtain ⟨sk, hskdec, hskne, hsklast, hskrep, hskscan⟩ :=
                  parseStrTail_consumed r0 kcs r1 hst
                obtain ⟨cv, hcvdec, hcvne, hcvlast, hcvscan, hcvobj, hcvrep⟩ :=
                  ihV (skipWs r3) v r4 hpv
                have hw1 : ∀ x ∈ r1.takeWhile jws, jws x = true :=
                  fun x hx => List.mem_takeWhile_imp hx
                have hw3 : ∀ x ∈ r3.takeWhile jws, jws x = true :=
                  fun x hx => List.mem_takeWhile_imp hx
                have hw4 : ∀ x ∈ r4.takeWhile jws, jws x = true :=
                  fun x hx => List.mem_takeWhile_imp hx
                have hr1 := skipWs_decomp r1
                rw [hsw1] at hr1
                have hr3 := skipWs_decomp r3
                have hr4 := skipWs_decomp r4
                rw [hsw4] at hr4
                obtain ⟨vc1, cv', hcv1, hcv1ws⟩ := skipWs_split_head r3 cv r4 hcvne hcvdec
                have hs3 : valScanOK [':'] := valScanOK_of_neutral [':'] (by
                  intro x hx
                  simp at hx
                  subst hx
                  exact ⟨by decide, by decide, by decide, by decide⟩)
                by_cases hcom : c5 = ','
                · rw [if_pos hcom] at h
                  subst hcom
                  cases hmr : parseMembersF f (skipWs r6) with
                  | none =>
                    rw [hmr] at h
                    cases h
                  | some q =>
                    obtain ⟨ms2, r7⟩ := q
                    rw [hmr, Option.map_some'] at h
                    injection h with h'
                    injection h' with h1 h2
                    rw [← h1, ← h2]
                    obtain ⟨m2, hm2dec, hm2ne, hm2last, hm2scan, hm2rep⟩ :=
                      ihM (skipWs r6) ms2 r7 hmr
                    have hw6 : ∀ x ∈ r6.takeWhile jws, jws x = true :=
                      fun x hx => List.mem_takeWhile_imp hx
                    have hr6 := skipWs_decomp r6
                    obtain ⟨nc1, m2', hm21, hm21ws⟩ :=
                      skipWs_split_head r6 m2 r7 hm2ne hm2dec
                    have hs7 : valScanOK [','] := valScanOK_of_neutral [','] (by
                      intro x hx
                      simp at hx
                      subst hx
                      exact ⟨by decide, by decide, by decide, by decide⟩)
                    have hA : valScanOK ((dquote :: sk) ++ r1.takeWhile jws ++ [':'] ++
                        r3.takeWhile jws ++ cv ++ r4.takeWhile jws ++ [','] ++
                        r6.takeWhile jws) :=
                      valScanOK_append _ _ (valScanOK_append _ _ (valScanOK_append _ _
                        (valScanOK_append _ _ (valScanOK_append _ _ (valScanOK_append _ _
                          (valScanOK_append _ _ (valScanOK_str_chunk sk hskscan)
                            (valScanOK_ws _ hw1)) hs3) (valScanOK_ws _ hw3)) hcvscan)
                        (valScanOK_ws _ hw4)) hs7) (valScanOK_ws _ hw6)
                    refine ⟨((dquote :: sk) ++ r1.takeWhile jws ++ [':'] ++
                      r3.takeWhile jws ++ cv ++ r4.takeWhile jws ++ [','] ++
                      r6.takeWhile jws) ++ m2, ?_, by simp, ?_, ?_, ?_⟩
                    · conv_lhs => rw [hskdec, hr1, hr3, hcvdec, hr4, hr6, hm2dec]
                      simp
                    · exact getLast?_append_some _ m2 cbrace hm2last
                    · exact memScanOK_compose _ m2 hA hm2scan
                    · intro g t hg ht
                      cases g with
                      | zero => exact absurd hg (by omega)
                      | succ g' =>
                        have hshape : (((dquote :: sk) ++ r1.takeWhile jws ++ [':'] ++
                            r3.takeWhile jws ++ cv ++ r4.takeWhile jws ++ [','] ++
                            r6.takeWhile jws) ++ m2) ++ t =
                            dquote :: (sk ++ (r1.takeWhile jws ++ (':' ::
                              (r3.takeWhile jws ++ (cv ++ (r4.takeWhile jws ++ (',' ::
                                (r6.takeWhile jws ++ (m2 ++ t))))))))) := by
                          simp
                        rw [hshape, parseMembersF_succ]
                        first
                        | rw [if_pos trivial]
                        | rw [if_pos rfl]
                        simp only [hskrep]
                        have hsww1 : skipWs (r1.takeWhile jws ++ (':' ::
                            (r3.takeWhile jws ++ (cv ++ (r4.takeWhile jws ++ (',' ::
                              (r6.takeWhile jws ++ (m2 ++ t)))))))) =
                            ':' :: (r3.takeWhile jws ++ (cv ++ (r4.takeWhile jws ++ (',' ::
                              (r6.takeWhile jws ++ (m2 ++ t)))))) :=
                          skipWs_pass _ [':'] _ hw1 ':' [] rfl (by decide)
                        simp only [hsww1]
                        first
                        | rw [if_pos trivial]
                        | rw [if_pos rfl]
                        have hsww3 : skipWs (r3.takeWhile jws ++ (cv ++
                            (r4.takeWhile jws ++ (',' ::
                              (r6.takeWhile jws ++ (m2 ++ t)))))) =
                            cv ++ (r4.takeWhile jws ++ (',' ::
                              (r6.takeWhile jws ++ (m2 ++ t)))) :=
                          skipWs_pass _ cv _ hw3 vc1 cv' hcv1 hcv1ws
                        simp only [hsww3]
                        have hval : parseValueF g' (cv ++ (r4.takeWhile jws ++ (',' ::
                            (r6.takeWhile jws ++ (m2 ++ t))))) =
                            some (v, r4.takeWhile jws ++ (',' ::
                              (r6.takeWhile jws ++ (m2 ++ t)))) :=
                          hcvrep g' _ (by simp [List.length_append] at hg; omega)
                            (tailOK_ws_cons _ ',' _ hw4
                              ⟨by decide, by decide, by decide, by decide⟩)
                        simp only [hval]
                        have hsww4 : skipWs (r4.takeWhile jws ++ (',' ::
                            (r6.takeWhile jws ++ (m2 ++ t)))) =
                            ',' :: (r6.takeWhile jws ++ (m2 ++ t)) :=
                          skipWs_pass _ [','] _ hw4 ',' [] rfl (by decide)
                        simp only [hsww4]
                        first
                        | rw [if_pos trivial]
                        | rw [if_pos rfl]
                        have hsww6 : skipWs (r6.takeWhile jws ++ (m2 ++ t)) = m2 ++ t :=
                          skipWs_pass _ m2 t hw6 nc1 m2' hm21 hm21ws
                        rw [hsww6, hm2rep g' t (by simp [List.length_append] at hg; omega) ht,
                          Option.map_some']
                · rw [if_neg hcom] at h
                  by_cases hcb2 : c5 = cbrace
                  · rw [if_pos hcb2] at h
                    subst hcb2
                    injection h with h'
                    injection h' with h1 h2
                    rw [← h1, ← h2]
                    have hA : valScanOK ((dquote :: sk) ++ r1.takeWhile jws ++ [':'] ++
                        r3.takeWhile jws ++ cv ++ r4.takeWhile jws) :=
                      valScanOK_append _ _ (valScanOK_append _ _ (valScanOK_append _ _
                        (valScanOK_append _ _ (valScanOK_str_chunk sk hskscan)
                          (valScanOK_ws _ hw1)) hs3) (valScanOK_ws _ hw3)) hcvscan
                        |> (fun hpre => valScanOK_append _ _ hpre (valScanOK_ws _ hw4))
                    refine ⟨((dquote :: sk) ++ r1.takeWhile jws ++ [':'] ++
                      r3.takeWhile jws ++ cv ++ r4.takeWhile jws) ++ [cbrace],
                      ?_, by simp, ?_, ?_, ?_⟩
                    · conv_lhs => rw [hskdec, hr1, hr3, hcvdec, hr4]
                      simp
                    · exact getLast?_append_some _ [cbrace] cbrace rfl
                    · exact memScanOK_concat _ hA
                    · intro g t hg ht
                      cases g with
                      | zero => exact absurd hg (by omega)
                      | succ g' =>
                        have hshape : (((dquote :: sk) ++ r1.takeWhile jws ++ [':'] ++
                            r3.takeWhile jws ++ cv ++ r4.takeWhile jws) ++ [cbrace]) ++ t =
                            dquote :: (sk ++ (r1.takeWhile jws ++ (':' ::
                              (r3.takeWhile jws ++ (cv ++ (r4.takeWhile jws ++
                                (cbrace :: t))))))) := by
                          simp
                        rw [hshape, parseMembersF_succ]
                        first
                        | rw [if_pos trivial]
                        | rw [if_pos rfl]
                        simp only [hskrep]
                        have hsww1 : skipWs (r1.takeWhile jws ++ (':' ::
                            (r3.takeWhile jws ++ (cv ++ (r4.takeWhile jws ++
                              (cbrace :: t)))))) =
                            ':' :: (r3.takeWhile jws ++ (cv ++ (r4.takeWhile jws ++
                              (cbrace :: t)))) :=
                          skipWs_pass _ [':'] _ hw1 ':' [] rfl (by decide)
                        simp only [hsww1]
                        first
                        | rw [if_pos trivial]
                        | rw [if_pos rfl]
                        have hsww3 : skipWs (r3.takeWhile jws ++ (cv ++
                            (r4.takeWhile jws ++ (cbrace :: t)))) =
                            cv ++ (r4.takeWhile jws ++ (cbrace :: t)) :=
                          skipWs_pass _ cv _ hw3 vc1 cv' hcv1 hcv1ws
                        simp only [hsww3]
                        have hval : parseValueF g' (cv ++ (r4.takeWhile jws ++
                            (cbrace :: t))) =
                            some (v, r4.takeWhile jws ++ (cbrace :: t)) :=
                          hcvrep g' _ (by simp [List.length_append] at hg; omega)
                            (tailOK_ws_cons _ cbrace _ hw4
                              ⟨by decide, by decide, by decide, by decide⟩)
                        simp only [hval]
                        have hsww4 : skipWs (r4.takeWhile jws ++ (cbrace :: t)) =
                            cbrace :: t :=
                          skipWs_pass _ [cbrace] _ hw4 cbrace [] rfl (by decide)
                        simp only [hsww4]
                        rw [if_neg (by decide)]
                        first
                        | rw [if_pos trivial]
                        | rw [if_pos rfl]
                  · rw [if_neg hcb2] at h
                    cases h
          · rw [if_neg hcol] at h
            cases h
    · rw [if_neg hdq] at h
      cases h

/-- Induction step for the elements parser. -/
theorem stepE (f : Nat) (ihV : VStmt f) (ihE : EStmt f) : EStmt (f + 1) := by
  intro l es r h
  rw [parseElemsF_succ] at h
  cases hpv : parseValueF f l with
  | none =>
    rw [hpv] at h
    cases h
  | some pv =>
    obtain ⟨v, r1⟩ := pv
    simp only [hpv] at h
    cases hsw1 : skipWs r1 with
    | nil =>
      rw [hsw1] at h
      cases h
    | cons c2 r2 =>
      simp only [hsw1] at h
      obtain ⟨cv, hcvdec, hcvne, hcvlast, hcvscan, hcvobj, hcvrep⟩ := ihV l v r1 hpv
      have hw1 : ∀ x ∈ r1.takeWhile jws, jws x = true :=
        fun x hx => List.mem_takeWhile_imp hx
      have hr1 := skipWs_decomp r1
      rw [hsw1] at hr1
      by_cases hcom : c2 = ','
      · rw [if_pos hcom] at h
        subst hcom
        cases her : parseElemsF f (skipWs r2) with
        | none =>
          rw [her] at h
          cases h
        | some q =>
          obtain ⟨es2, r3⟩ := q
          rw [her, Option.map_some'] at h
          injection h with h'
          injection h' with h1 h2
          rw [← h1, ← h2]
          obtain ⟨ce2, hce2dec, hce2ne, hce2last, hce2scan, hce2rep⟩ :=
            ihE (skipWs r2) es2 r3 her
          have hw2 : ∀ x ∈ r2.takeWhile jws, jws x = true :=
            fun x hx => List.mem_takeWhile_imp hx
          have hr2 := skipWs_decomp r2
          obtain ⟨ec1, ce2', hec1, hec1ws⟩ := skipWs_split_head r2 ce2 r3 hce2ne hce2dec
          have hs7 : valScanOK [','] := valScanOK_of_neutral [','] (by
            intro x hx
            simp at hx
            subst hx
            exact ⟨by decide, by decide, by decide, by decide⟩)
          refine ⟨(cv ++ r1.takeWhile jws ++ [','] ++ r2.takeWhile jws) ++ ce2,
            ?_, ?_, ?_, ?_, ?_⟩
          · conv_lhs => rw [hcvdec, hr1, hr2, hce2dec]
            simp
          · intro h0
            rw [List.append_eq_nil] at h0
            exact hce2ne h0.2
          · exact getLast?_append_some _ ce2 ']' hce2last
          · exact valScanOK_append _ _ (valScanOK_append _ _ (valScanOK_append _ _
              (valScanOK_append _ _ hcvscan (valScanOK_ws _ hw1)) hs7)
              (valScanOK_ws _ hw2)) hce2scan
          · intro g t hg ht
            cases g with
            | zero => exact absurd hg (by omega)
            | succ g' =>
              have hshape : (((cv ++ r1.takeWhile jws ++ [','] ++ r2.takeWhile jws) ++
                  ce2) ++ t) =
                  cv ++ (r1.takeWhile jws ++ (',' :: (r2.takeWhile jws ++ (ce2 ++ t)))) := by
                simp
              rw [hshape, parseElemsF_succ]
              have hval : parseValueF g' (cv ++ (r1.takeWhile jws ++ (',' ::
                  (r2.takeWhile jws ++ (ce2 ++ t))))) =
                  some (v, r1.takeWhile jws ++ (',' ::
                    (r2.takeWhile jws ++ (ce2 ++ t)))) :=
                hcvrep g' _ (by simp [List.length_append] at hg; omega)
                  (tailOK_ws_cons _ ',' _ hw1
                    ⟨by decide, by decide, by decide, by decide⟩)
              simp only [hval]
              have hsw2' : skipWs (r1.takeWhile jws ++ (',' ::
                  (r2.takeWhile jws ++ (ce2 ++ t)))) =
                  ',' :: (r2.takeWhile jws ++ (ce2 ++ t)) :=
                skipWs_pass _ [','] _ hw1 ',' [] rfl (by decide)
              simp only [hsw2']
              first
              | rw [if_pos trivial]
              | rw [if_pos rfl]
              have hsww2 : skipWs (r2.takeWhile jws ++ (ce2 ++ t)) = ce2 ++ t :=
                skipWs_pass _ ce2 t hw2 ec1 ce2' hec1 hec1ws
              rw [hsww2, hce2rep g' t (by simp [List.length_append] at hg; omega) ht,
                Option.map_some']
      · rw [if_neg hcom] at h
        by_cases hbk : c2 = ']'
        · rw [if_pos hbk] at h
          subst hbk
          injection h with h'
          injection h' with h1 h2
          rw [← h1, ← h2]
          refine ⟨cv ++ r1.takeWhile jws ++ [']'], ?_, by simp, ?_, ?_, ?_⟩
          · conv_lhs => rw [hcvdec, hr1]
            simp
          · exact getLast?_append_some _ [']'] ']' rfl
          · exact valScanOK_append _ _ (valScanOK_append _ _ hcvscan (valScanOK_ws _ hw1))
              (valScanOK_of_neutral [']'] (by
                intro x hx
                simp at hx
                subst hx
                exact ⟨by decide, by decide, by decide, by decide⟩))
          · intro g t hg ht
            cases g with
            | zero => exact absurd hg (by omega)
            | succ g' =>
              have hshape : ((cv ++ r1.takeWhile jws ++ [']']) ++ t) =
                  cv ++ (r1.takeWhile jws ++ (']' :: t)) := by
                simp
              rw [hshape, parseElemsF_succ]
              have hval : parseValueF g' (cv ++ (r1.takeWhile jws ++ (']' :: t))) =
                  some (v, r1.takeWhile jws ++ (']' :: t)) :=
                hcvrep g' _ (by simp [List.length_append] at hg; omega)
                  (tailOK_ws_cons _ ']' _ hw1
                    ⟨by decide, by decide, by decide, by decide⟩)
              simp only [hval]
              have hsw2' : skipWs (r1.takeWhile jws ++ (']' :: t)) = ']' :: t :=
                skipWs_pass _ [']'] _ hw1 ']' [] rfl (by decide)
              simp only [hsw2']
              rw [if_neg (by decide)]
              first
              | rw [if_pos trivial]
              | rw [if_pos rfl]
        · rw [if_neg hbk] at h
          cases h

/-- The full mutual induction over fuel: simultaneous consumed-chunk,
scan-behaviour and re-parse facts for the three parsers. -/
theorem parse_master (f : Nat) : VStmt f ∧ MStmt f ∧ EStmt f := by
  induction f with
  | zero =>
    refine ⟨?_, ?_, ?_⟩
    · intro l v r h
      rw [parseValueF_zero] at h
      cases h
    · intro l ms r h
      rw [parseMembersF_zero] at h
      cases h
    · intro l es r h
      rw [parseElemsF_zero] at h
      cases h
  | succ f ih =>
    exact ⟨stepV f ih.2.1 ih.2.2, stepM f ih.1 ih.2.1, stepE f ih.1 ih.2.2⟩

/-! ## Assembly: valid fence-free object inputs survive both extractions -/

theorem jws_jsTrimWs (x : Char) (h : jws x = true) : jsTrimWs x = true := by
  rcases jws_char_cases x h with rfl | rfl | rfl | rfl <;> decide

theorem findTriple_drop_left (a b : List Char) (h : findTriple (a ++ b) = none) :
    findTriple b = none := by
  induction a with
  | nil => exact h
  | cons x a' ih =>
    rw [List.cons_append] at h
    exact ih (findTriple_tail x (a' ++ b) h)

theorem findTriple_append_isSome (a : List Char) : ∀ (k : Nat) (b : List Char),
    findTriple a = some k → ∃ k', findTriple (a ++ b) = some k' := by
  induction a with
  | nil =>
    intro k b h
    cases h
  | cons x a' ih =>
    intro k b h
    cases a' with
    | nil => cases h
    | cons y a'' =>
      cases a'' with
      | nil => cases h
      | cons z rest =>
        rw [findTriple_cons3] at h
        by_cases hc : x = btick ∧ y = btick ∧ z = btick
        · refine ⟨0, ?_⟩
          show findTriple (x :: y :: z :: (rest ++ b)) = some 0
          rw [findTriple_cons3, if_pos hc]
        · rw [if_neg hc] at h
          cases hf : findTriple (y :: z :: rest) with
          | none =>
            rw [hf] at h
            cases h
          | some k0 =>
            obtain ⟨k', hk'⟩ := ih k0 b hf
            refine ⟨k' + 1, ?_⟩
            show findTriple (x :: y :: z :: (rest ++ b)) = some (k' + 1)
            rw [findTriple_cons3, if_neg hc]
            have hk2 : findTriple (y :: z :: (rest ++ b)) = some k' := hk'
            rw [hk2, Option.map_some']

theorem findTriple_left_none (a b : List Char) (h : findTriple (a ++ b) = none) :
    findTriple a = none := by
  cases hf : findTriple a with
  | none => rfl
  | some k =>
    obtain ⟨k', hk'⟩ := findTriple_append_isSome a k b hf
    rw [hk'] at h
    cases h

theorem trimChars_sandwich (w c r : List Char)
    (hw : ∀ x ∈ w, jsTrimWs x = true) (hr : ∀ x ∈ r, jsTrimWs x = true)
    (a : Char) (ha : c.head? = some a) (hta : jsTrimWs a = false)
    (b : Char) (hb : c.getLast? = some b) (htb : jsTrimWs b = false) :
    trimChars (w ++ (c ++ r)) = c := by
  obtain ⟨c1, hc1⟩ : ∃ c1, c = a :: c1 := by
    cases c with
    | nil => cases ha
    | cons x c1 =>
      injection ha with ha'
      exact ⟨c1, by rw [ha']⟩
  unfold trimChars
  have h1 : List.dropWhile jsTrimWs (w ++ (c ++ r)) = c ++ r := by
    rw [List.dropWhile_append,
      if_pos (by rw [List.isEmpty_iff]; exact List.dropWhile_eq_nil_iff.mpr hw)]
    rw [hc1, List.cons_append, List.dropWhile_cons, hta]
    rfl
  rw [h1, List.reverse_append]
  have h3 : List.dropWhile jsTrimWs (r.reverse ++ c.reverse) = c.reverse := by
    rw [List.dropWhile_append,
      if_pos (by
        rw [List.isEmpty_iff]
        exact List.dropWhile_eq_nil_iff.mpr (fun x hx => hr x (List.mem_reverse.mp hx)))]
    have hbb : c.reverse.head? = some b := by
      rw [List.head?_reverse]
      exact hb
    obtain ⟨c2, hc2⟩ : ∃ c2, c.reverse = b :: c2 := by
      cases hcr : c.reverse with
      | nil =>
        rw [hcr] at hbb
        cases hbb
      | cons y c2 =>
        rw [hcr] at hbb
        injection hbb with hy
        exact ⟨c2, by rw [hy]⟩
    rw [hc2, List.dropWhile_cons, htb]
    rfl
  rw [h3, List.reverse_reverse]

theorem firstIdxOf_head (c : List Char) (ch : Char) (h : c.head? = some ch) :
    firstIdxOf c ch = some 0 := by
  cases c with
  | nil => cases h
  | cons x c' =>
    injection h with h'
    unfold firstIdxOf
    rw [List.findIdx?_cons, if_pos (by rw [h']; simp)]

theorem lastIdxOf_getLast (c : List Char) (ch : Char) (h : c.getLast? = some ch) :
    lastIdxOf c ch = some (c.length - 1) := by
  have hbb : c.reverse.head? = some ch := by
    rw [List.head?_reverse]
    exact h
  obtain ⟨c2, hc2⟩ : ∃ c2, c.reverse = ch :: c2 := by
    cases hcr : c.reverse with
    | nil =>
      rw [hcr] at hbb
      cases hbb
    | cons y c2 =>
      rw [hcr] at hbb
      injection hbb with hy
      exact ⟨c2, by rw [hy]⟩
  unfold lastIdxOf
  rw [hc2, List.findIdx?_cons, if_pos (by simp)]
  rfl

theorem firstIdxOf_after_ws (w cs : List Char) (hw : ∀ x ∈ w, jws x = true)
    (hne : cs.head? = some obrace) :
    firstIdxOf (w ++ cs) obrace = some w.length := by
  unfold firstIdxOf
  rw [List.findIdx?_append]
  have h1 : List.findIdx? (· = obrace) w = none := by
    rw [List.findIdx?_eq_none_iff]
    intro x hx
    rcases jws_char_cases x (hw x hx) with rfl | rfl | rfl | rfl <;> decide
  have h2 : List.findIdx? (· = obrace) cs = some 0 := by
    cases cs with
    | nil => cases hne
    | cons y cs' =>
      injection hne with hy
      rw [List.findIdx?_cons, if_pos (by rw [hy]; simp)]
  rw [h1, h2]
  simp

theorem jsParse_obj_decomp (s : String) (v : Json) (h : jsParse s = some v)
    (fs : List (String × Json)) (hv : v = Json.obj fs) :
    ∃ w c r, s.data = w ++ (c ++ r) ∧ (∀ x ∈ w, jws x = true) ∧
      (∀ x ∈ r, jws x = true) ∧ c.head? = some obrace ∧
      c.getLast? = some cbrace ∧ scanFind 0 false false c = some (c.length - 1) ∧
      jsParse (String.mk c) = some v ∧ c ≠ [] := by
  unfold jsParse jsParseChars at h
  cases hpv : parseValueF (s.data.length + 1) (skipWs s.data) with
  | none =>
    rw [hpv] at h
    cases h
  | some p =>
    obtain ⟨v0, r0⟩ := p
    simp only [hpv] at h
    by_cases hemp : (skipWs r0).isEmpty = true
    · rw [if_pos hemp] at h
      injection h with h1
      subst h1
      have hrws : ∀ x ∈ r0, jws x = true :=
        List.dropWhile_eq_nil_iff.mp (List.isEmpty_iff.mp hemp)
      obtain ⟨c, hdec, hne, hlastnw, hscanv, hobjf, hrep⟩ :=
        (parse_master (s.data.length + 1)).1 (skipWs s.data) v0 r0 hpv
      obtain ⟨hscan, hhead, hlast⟩ := hobjf fs hv
      refine ⟨s.data.takeWhile jws, c, r0,
        (skipWs_decomp s.data).trans (by rw [hdec]),
        fun x hx => List.mem_takeWhile_imp hx, hrws, hhead, hlast, hscan, ?_, hne⟩
      obtain ⟨c', hc'⟩ : ∃ c', c = obrace :: c' := by
        cases c with
        | nil => cases hhead
        | cons y c' =>
          injection hhead with hy
          exact ⟨c', by rw [hy]⟩
      have hskc : skipWs c = c := by
        rw [hc']
        show List.dropWhile jws (obrace :: c') = obrace :: c'
        rw [List.dropWhile_cons, show jws obrace = false from by decide]
        rfl
      have hpc : parseValueF (c.length + 1) c = some (v0, []) := by
        have hp2 := hrep (c.length + 1) [] (by omega) tailOK_nil
        rw [List.append_nil] at hp2
        exact hp2
      show jsParse (String.mk c) = some v0
      unfold jsParse jsParseChars
      show (match parseValueF (c.length + 1) (skipWs c) with
        | some (v1, r1) => if (skipWs r1).isEmpty then some v1 else none
        | none => none) = some v0
      rw [hskc]
      simp only [hpc]
      rfl
    · rw [if_neg hemp] at h
      cases h

theorem openaiExtract_sandwich (s : String) (w c r : List Char)
    (hsdata : s.data = w ++ (c ++ r)) (hw : ∀ x ∈ w, jws x = true)
    (hr : ∀ x ∈ r, jws x = true) (hhead : c.head? = some obrace)
    (hlast : c.getLast? = some cbrace) (hfence : findTriple s.data = none) :
    openaiExtractChars s.data = c := by
  have htrim : trimChars s.data = c := by
    rw [hsdata]
    exact trimChars_sandwich w c r (fun x hx => jws_jsTrimWs x (hw x hx))
      (fun x hx => jws_jsTrimWs x (hr x hx)) obrace hhead (by decide)
      cbrace hlast (by decide)
  have hftc : findTriple c = none := by
    rw [hsdata] at hfence
    exact findTriple_left_none c r (findTriple_drop_left w (c ++ r) hfence)
  have hlen2 : 2 ≤ c.length := by
    cases c with
    | nil => cases hhead
    | cons y c' =>
      cases c' with
      | nil =>
        injection hhead with hy
        rw [show ([y] : List Char).getLast? = some y from rfl] at hlast
        injection hlast with hy2
        exact absurd (hy.symm.trans hy2) (by decide)
      | cons z c'' =>
        simp [List.length_cons]
  unfold openaiExtractChars
  rw [htrim]
  unfold openaiExtractCore
  simp only [show codeBlockExtract c = none from by unfold codeBlockExtract; rw [hftc],
    show startFenceExtract c = none from by unfold startFenceExtract; rw [hftc]]
  unfold openaiNoFence
  simp only [firstIdxOf_head c obrace hhead, lastIdxOf_getLast c cbrace hlast]
  rw [if_pos (by omega)]
  rw [List.drop_zero, show c.length - 1 - 0 + 1 = c.length from by omega, List.take_length]

theorem geminiExtract_sandwich (s : String) (w c r : List Char)
    (hsdata : s.data = w ++ (c ++ r)) (hw : ∀ x ∈ w, jws x = true)
    (hr : ∀ x ∈ r, jws x = true) (hhead : c.head? = some obrace)
    (hlast : c.getLast? = some cbrace)
    (hscan : scanFind 0 false false c = some (c.length - 1))
    (hfence : findTriple s.data = none) :
    geminiExtractChars s.data = c := by
  have hcbe : codeBlockExtract s.data = none := by
    unfold codeBlockExtract
    rw [hfence]
  unfold geminiExtractChars
  simp only [hcbe]
  obtain ⟨c', hc'⟩ : ∃ c', c = obrace :: c' := by
    cases c with
    | nil => cases hhead
    | cons y c' =>
      injection hhead with hy
      exact ⟨c', by rw [hy]⟩
  have hha : (c ++ r).head? = some obrace := by
    rw [hc', List.cons_append]
    rfl
  rw [hsdata]
  simp only [firstIdxOf_after_ws w (c ++ r) hw hha]
  simp only [List.drop_left]
  simp only [scanFind_append_some c r 0 false false (c.length - 1) hscan]
  have hlen1 : c.length - 1 + 1 = c.length := by
    rw [hc']
    simp
  rw [hlen1]
  exact List.take_left c r

/-- C7 (amended): for an input that is a syntactically valid JSON object
matching the Structured Question schema and containing no triple-backtick
fence marker, both pipelines' extraction stages return exactly the object
chunk, the direct-parse stage succeeds, and both adapters return exactly
the object the input denotes, for every repair collaborator. -/
theorem c7_amended (repair : String → Option String) (s : String) (v : Json)
    (hparse : jsParse s = some v) (hobj : specWellFormedQuestion v = true)
    (hfence : findTriple s.data = none) :
    openaiParseResponse repair s = some v ∧ geminiParseResponse repair s = some v := by
  obtain ⟨fs, hv⟩ : ∃ fs, v = Json.obj fs := by
    cases v with
    | obj fs => exact ⟨fs, rfl⟩
    | null => cases hobj
    | bool b => cases hobj
    | num n => cases hobj
    | str st => cases hobj
    | arr xs => cases hobj
  obtain ⟨w, c, r, hsdata, hw, hr, hhead, hlast, hscan, hjc, hcne⟩ :=
    jsParse_obj_decomp s v hparse fs hv
  have hopen := openaiExtract_sandwich s w c r hsdata hw hr hhead hlast hfence
  have hgem := geminiExtract_sandwich s w c r hsdata hw hr hhead hlast hscan hfence
  constructor
  · unfold openaiParseResponse openaiStages
    rw [show openaiExtractJson s = String.mk c from by unfold openaiExtractJson; rw [hopen]]
    simp only [hjc]
  · unfold geminiParseResponse geminiStages
    rw [show geminiExtractJson s = String.mk c from by unfold geminiExtractJson; rw [hgem]]
    simp only [hjc]

/-- Witness for C7 (amended) at a concrete schema-complete fence-free
input. -/
theorem c7_amended_witness :
    jsParse "\x7b\"questionText\":\"q\",\"answerText\":\"a\",\"analysis\":\"b\",\"subject\":\"m\",\"knowledgePoints\":[]\x7d" =
      some (Json.obj [("questionText", Json.str "q"), ("answerText", Json.str "a"),
        ("analysis", Json.str "b"), ("subject", Json.str "m"),
        ("knowledgePoints", Json.arr [])]) ∧
    specWellFormedQuestion (Json.obj [("questionText", Json.str "q"),
      ("answerText", Json.str "a"), ("analysis", Json.str "b"),
      ("subject", Json.str "m"), ("knowledgePoints", Json.arr [])]) = true ∧
    openaiParseResponse noRepair
        "\x7b\"questionText\":\"q\",\"answerText\":\"a\",\"analysis\":\"b\",\"subject\":\"m\",\"knowledgePoints\":[]\x7d" =
      some (Json.obj [("questionText", Json.str "q"), ("answerText", Json.str "a"),
        ("analysis", Json.str "b"), ("subject", Json.str "m"),
        ("knowledgePoints", Json.arr [])]) ∧
    geminiParseResponse noRepair
        "\x7b\"questionText\":\"q\",\"answerText\":\"a\",\"analysis\":\"b\",\"subject\":\"m\",\"knowledgePoints\":[]\x7d" =
      some (Json.obj [("questionText", Json.str "q"), ("answerText", Json.str "a"),
        ("analysis", Json.str "b"), ("subject", Json.str "m"),
        ("knowledgePoints", Json.arr [])]) :=
  ⟨rfl, rfl,
    (c7_amended noRepair
      "\x7b\"questionText\":\"q\",\"answerText\":\"a\",\"analysis\":\"b\",\"subject\":\"m\",\"knowledgePoints\":[]\x7d"
      (Json.obj [("questionText", Json.str "q"), ("answerText", Json.str "a"),
        ("analysis", Json.str "b"), ("subject", Json.str "m"),
        ("knowledgePoints", Json.arr [])]) rfl rfl rfl).1,
    (c7_amended noRepair
      "\x7b\"questionText\":\"q\",\"answerText\":\"a\",\"analysis\":\"b\",\"subject\":\"m\",\"knowledgePoints\":[]\x7d"
      (Json.obj [("questionText", Json.str "q"), ("answerText", Json.str "a"),
        ("analysis", Json.str "b"), ("subject", Json.str "m"),
        ("knowledgePoints", Json.arr [])]) rfl rfl rfl).2⟩

end WN
